import Mathlib

/-!
Verification of the Aether environment-variable manager core.

Strings of the source language are modelled as lists of characters
(`Str`).  The env-text codec, the import reconciler (diff and merge) and
the store controller are translated from the source; JavaScript `Map`
objects are modelled as association lists with `Map.set` insertion
semantics, and the nondeterministic id generator (`Date.now`,
`Math.random`) is modelled as an explicit `Nat → Str` supply threaded
through the operations.
-/

abbrev Str := List Char

inductive VariableType where
  | TEXT
  | URL
  | EMAIL
  | JWT
  | AWS_KEY
  | GENERIC_SECRET
deriving DecidableEq

structure EnvironmentVariable where
  id : Str
  key : Str
  value : Str
  isSecret : Bool
  type : VariableType
deriving DecidableEq

structure Profile where
  id : Str
  name : Str
  «variables» : List EnvironmentVariable
deriving DecidableEq

structure Project where
  id : Str
  name : Str
  profiles : List Profile
  activeProfileId : Str
deriving DecidableEq

/-- Whitespace characters removed by trimming (the source inputs are
ASCII, so the JavaScript `trim` set is restricted accordingly). -/
def isWS (c : Char) : Bool :=
  decide (c = ' ') || decide (c = '\t') || decide (c = '\n') || decide (c = '\r')

/-- `s.trim()` of the source: drop whitespace from both ends. -/
def trimStr (s : Str) : Str :=
  ((s.dropWhile isWS).reverse.dropWhile isWS).reverse

/-- `s.split(c)` of the source: `splitOnChar c [] = [[]]`, and the
separator is consumed. -/
def splitOnChar (c : Char) : List Char → List (List Char)
  | [] => [[]]
  | a :: as =>
    if a = c then [] :: splitOnChar c as
    else
      match splitOnChar c as with
      | [] => [[a]]
      | h :: t => (a :: h) :: t

/-- `parts.join(c)` of the source. -/
def joinWith (c : Char) : List Str → Str
  | [] => []
  | [s] => s
  | s :: rest => s ++ c :: joinWith c rest

structure EnvPair where
  key : Str
  value : Str
deriving DecidableEq

/-- The line body of `handleFileChange`: trim the line, skip it when
empty or starting with `#`, destructure `trimmedLine.split('=')` as
`[key, ...valueParts]`, skip when `key` is empty, and otherwise push
the trimmed key with the rejoined trimmed value. -/
def parseLineStep (acc : List EnvPair) (line : Str) : List EnvPair :=
  let trimmedLine := trimStr line
  if trimmedLine = [] then acc
  else if trimmedLine.head? = some '#' then acc
  else
    match splitOnChar '=' trimmedLine with
    | [] => acc
    | key :: valueParts =>
      if key = [] then acc
      else acc ++ [⟨trimStr key, trimStr (joinWith '=' valueParts)⟩]

/-- The `lines.forEach` loop of `handleFileChange`. -/
def parseEnvLines (lines : List Str) : List EnvPair :=
  lines.foldl parseLineStep []

/-- `content.split('\n')` followed by the line loop of
`handleFileChange`. -/
def parseEnv (text : Str) : List EnvPair :=
  parseEnvLines (splitOnChar '\n' text)

/-- `handleExport`: `variables.map(v => key + '=' + value).join('\n')`. -/
def serializeVars (vars : List EnvironmentVariable) : Str :=
  joinWith '\n' (vars.map (fun v => v.key ++ '=' :: v.value))

structure UpdatedPair where
  key : Str
  value : Str
  oldValue : Str
deriving DecidableEq

structure ImportDiff where
  newVars : List EnvPair
  updatedVars : List UpdatedPair
deriving DecidableEq

/-- `new Map(profile.«variables».map(v => [v.key, v.value])).get(k)`:
for duplicate keys the last occurrence wins, so look up the reversed
list. -/
def envLookup (vars : List EnvironmentVariable) (k : Str) : Option Str :=
  (vars.reverse.find? (fun v => decide (v.key = k))).map (fun v => v.value)

/-- The body of the diff loop of `handleFileChange`: a pair with an
absent key is new; a pair with a present key and a different value is
updated, retaining the prior value; an equal pair is dropped. -/
def diffStep (vars : List EnvironmentVariable) (d : ImportDiff) (v : EnvPair) : ImportDiff :=
  match envLookup vars v.key with
  | none => { d with newVars := d.newVars ++ [v] }
  | some old =>
    if old = v.value then d
    else { d with updatedVars := d.updatedVars ++ [⟨v.key, v.value, old⟩] }

/-- The `importedVars.forEach` diff loop of `handleFileChange`. -/
def diffVars (vars : List EnvironmentVariable) (importedVars : List EnvPair) : ImportDiff :=
  importedVars.foldl (diffStep vars) ⟨[], []⟩

/-- `confirmImport`: the pair list handed to the merge is
`[...diff.newVars, ...diff.updatedVars]`. -/
def importPlanPairs (vars : List EnvironmentVariable) (importedVars : List EnvPair) : List EnvPair :=
  (diffVars vars importedVars).newVars ++
    (diffVars vars importedVars).updatedVars.map (fun u => ⟨u.key, u.value⟩)

abbrev VarMap := List (Str × EnvironmentVariable)

def keysOf (m : VarMap) : List Str := m.map (fun e => e.1)

/-- `map.has(k)`. -/
def hasKey (m : VarMap) (k : Str) : Bool :=
  m.any (fun e => decide (e.1 = k))

/-- `map.set(k, v)`: replace in place when the key is present, append
otherwise. -/
def mapSet (m : VarMap) (k : Str) (v : EnvironmentVariable) : VarMap :=
  if hasKey m k then m.map (fun e => if e.1 = k then (e.1, v) else e)
  else m ++ [(k, v)]

/-- `new Map(prof.«variables».map(v => [v.key, v]))`. -/
def buildVarMap (vars : List EnvironmentVariable) : VarMap :=
  vars.foldl (fun m v => mapSet m v.key v) []

def setValue (v : EnvironmentVariable) (val : Str) : EnvironmentVariable :=
  { v with value := val }

/-- `existing.value = importedVar.value` on the variable stored in the
map. -/
def mapUpdateValue (m : VarMap) (k : Str) (val : Str) : VarMap :=
  m.map (fun e => if e.1 = k then (e.1, setValue e.2 val) else e)

/-- The variable created for an unmatched imported pair: fresh id,
imported key and value, `isSecret = false`, `type = TEXT`. -/
def mergeNewVar (id : Str) (p : EnvPair) : EnvironmentVariable :=
  ⟨id, p.key, p.value, false, VariableType.TEXT⟩

/-- The `importedVars.forEach` loop of `handleImportVariables`, with the
fresh-id supply `gen` and its counter made explicit. -/
def mergeLoop (gen : Nat → Str) : VarMap × Nat → List EnvPair → VarMap × Nat
  | mc, [] => mc
  | (m, c), p :: ps =>
    if hasKey m p.key then mergeLoop gen (mapUpdateValue m p.key p.value, c) ps
    else mergeLoop gen (m ++ [(p.key, mergeNewVar (gen c) p)], c + 1) ps

/-- `handleImportVariables` at the variable-list level:
`Array.from(existingVarsMap.values())` after the merge loop. -/
def mergeVars (gen : Nat → Str) (c : Nat) (vars : List EnvironmentVariable)
    (pairs : List EnvPair) : List EnvironmentVariable :=
  ((mergeLoop gen (buildVarMap vars, c) pairs).1).map (fun e => e.2)

/-- `handleImportVariables` at the profile level. -/
def mergeProfile (gen : Nat → Str) (c : Nat) (prof : Profile) (pairs : List EnvPair) : Profile :=
  { prof with «variables» := mergeVars gen c prof.«variables» pairs }

/-- The full import path for one profile: parse the file content, diff
it against the profile, and commit `[...newVars, ...updatedVars]`
through the merge. -/
def importFileToProfile (gen : Nat → Str) (c : Nat) (prof : Profile) (content : Str) : Profile :=
  mergeProfile gen c prof (importPlanPairs prof.«variables» (parseEnv content))

/-- Partial variable update (`Partial<Omit<EnvironmentVariable, 'id'>>`). -/
structure PartialVar where
  key : Option Str
  value : Option Str
  isSecret : Option Bool
  type : Option VariableType
deriving DecidableEq

/-- `{ ...v, ...updatedVar }`: fields present in the update override. -/
def applySpread (v : EnvironmentVariable) (u : PartialVar) : EnvironmentVariable :=
  { id := v.id
    key := u.key.getD v.key
    value := u.value.getD v.value
    isSecret := u.isSecret.getD v.isSecret
    type := u.type.getD v.type }

structure StoreState where
  projects : List Project
  selectedProjectId : Option Str
deriving DecidableEq

/-- The store-controller operations of `App`; nondeterministically
generated fresh ids appear as explicit arguments. -/
inductive StoreOp where
  | profileChange (projectId profileId : Str)
  | variableChange (profileId varId : Str) (upd : PartialVar)
  | addVariable (profileId newVarId : Str)
  | deleteVariable (profileId varId : Str)
  | addProject (name newProjectId newProfileId : Str)
  | renameProject (projectId name : Str)
  | deleteProject (projectId : Str)
  | addProfile (projectId name newProfileId : Str) (varIdGen : Nat → Str)
  | renameProfile (projectId profileId name : Str)
  | deleteProfile (projectId profileId : Str)
  | importVariables (profileId : Str) (pairs : List EnvPair) (idGen : Nat → Str) (c : Nat)

/-- `handleProfileChange`: sets `activeProfileId` on the matching
project (without checking that the profile exists). -/
def handleProfileChangeFn (projectId profileId : Str) (s : StoreState) : StoreState :=
  { s with projects := s.projects.map (fun p =>
      if p.id = projectId then { p with activeProfileId := profileId } else p) }

def updateVariableInProfile (varId : Str) (upd : PartialVar) (prof : Profile) : Profile :=
  { prof with «variables» := prof.«variables».map (fun v =>
      if v.id = varId then applySpread v upd else v) }

/-- `handleVariableChange`: addressed to the currently selected
project. -/
def handleVariableChangeFn (profileId varId : Str) (upd : PartialVar) (s : StoreState) : StoreState :=
  { s with projects := s.projects.map (fun p =>
      if some p.id = s.selectedProjectId then
        { p with profiles := p.profiles.map (fun prof =>
            if prof.id = profileId then updateVariableInProfile varId upd prof else prof) }
      else p) }

/-- `handleAddVariable`: appends an empty variable to the addressed
profile of the selected project. -/
def handleAddVariableFn (profileId newVarId : Str) (s : StoreState) : StoreState :=
  { s with projects := s.projects.map (fun p =>
      if some p.id = s.selectedProjectId then
        { p with profiles := p.profiles.map (fun prof =>
            if prof.id = profileId then
              { prof with «variables» :=
                  prof.«variables» ++ [⟨newVarId, [], [], false, VariableType.TEXT⟩] }
            else prof) }
      else p) }

/-- `handleDeleteVariable`. -/
def handleDeleteVariableFn (profileId varId : Str) (s : StoreState) : StoreState :=
  { s with projects := s.projects.map (fun p =>
      if some p.id = s.selectedProjectId then
        { p with profiles := p.profiles.map (fun prof =>
            if prof.id = profileId then
              { prof with «variables» := prof.«variables».filter (fun v => decide (v.id ≠ varId)) }
            else prof) }
      else p) }

/-- `handleAddProject`: one empty profile named "development"; the new
project becomes selected. -/
def handleAddProjectFn (name newProjectId newProfileId : Str) (s : StoreState) : StoreState :=
  { projects := s.projects ++
      [⟨newProjectId, name, [⟨newProfileId, "development".toList, []⟩], newProfileId⟩]
    selectedProjectId := some newProjectId }

/-- `handleRenameProject`. -/
def handleRenameProjectFn (projectId name : Str) (s : StoreState) : StoreState :=
  { s with projects := s.projects.map (fun p =>
      if p.id = projectId then { p with name := name } else p) }

/-- `handleDeleteProject` (the selection self-heal effect is separate
and not part of this controller call). -/
def handleDeleteProjectFn (projectId : Str) (s : StoreState) : StoreState :=
  { s with projects := s.projects.filter (fun p => decide (p.id ≠ projectId)) }

/-- Clone of the active profile's variables with fresh ids. -/
def cloneVars (gen : Nat → Str) : Nat → List EnvironmentVariable → List EnvironmentVariable
  | _, [] => []
  | i, v :: vs => { v with id := gen i } :: cloneVars gen (i + 1) vs

/-- The per-project body of `handleAddProfile`. -/
def addProfileInProject (name newProfileId : Str) (gen : Nat → Str) (p : Project) : Project :=
  match p.profiles.find? (fun prof => decide (prof.id = p.activeProfileId)) with
  | none => p
  | some activeProf =>
    { p with profiles := p.profiles ++ [⟨newProfileId, name, cloneVars gen 0 activeProf.«variables»⟩]
             activeProfileId := newProfileId }

/-- `handleAddProfile`. -/
def handleAddProfileFn (projectId name newProfileId : Str) (gen : Nat → Str) (s : StoreState) : StoreState :=
  { s with projects := s.projects.map (fun p =>
      if p.id = projectId then addProfileInProject name newProfileId gen p else p) }

/-- `handleRenameProfile`. -/
def handleRenameProfileFn (projectId profileId name : Str) (s : StoreState) : StoreState :=
  { s with projects := s.projects.map (fun p =>
      if p.id = projectId then
        { p with profiles := p.profiles.map (fun prof =>
            if prof.id = profileId then { prof with name := name } else prof) }
      else p) }

/-- The per-project body of `handleDeleteProfile`: refuse to delete the
last profile; otherwise filter the profile out and, when it was active,
reassign `activeProfileId` to the first remaining profile.  When the
filtered list is empty the source dereferences `newProfiles[0]` and
throws, so the state update does not commit; that branch is modelled as
returning the project unchanged (it is unreachable when profile ids are
unique). -/
def deleteProfileInProject (profileId : Str) (p : Project) : Project :=
  if p.profiles.length ≤ 1 then p
  else
    let newProfiles := p.profiles.filter (fun prof => decide (prof.id ≠ profileId))
    if p.activeProfileId = profileId then
      match newProfiles with
      | [] => p
      | first :: rest => { p with profiles := first :: rest, activeProfileId := first.id }
    else { p with profiles := newProfiles }

/-- `handleDeleteProfile`. -/
def handleDeleteProfileFn (projectId profileId : Str) (s : StoreState) : StoreState :=
  { s with projects := s.projects.map (fun p =>
      if p.id = projectId then deleteProfileInProject profileId p else p) }

/-- `handleImportVariables` lifted to the store. -/
def handleImportVariablesFn (profileId : Str) (pairs : List EnvPair) (gen : Nat → Str) (c : Nat)
    (s : StoreState) : StoreState :=
  { s with projects := s.projects.map (fun p =>
      if some p.id = s.selectedProjectId then
        { p with profiles := p.profiles.map (fun prof =>
            if prof.id = profileId then mergeProfile gen c prof pairs else prof) }
      else p) }

/-- One store-controller step. -/
def storeStep (s : StoreState) : StoreOp → StoreState
  | .profileChange projectId profileId => handleProfileChangeFn projectId profileId s
  | .variableChange profileId varId upd => handleVariableChangeFn profileId varId upd s
  | .addVariable profileId newVarId => handleAddVariableFn profileId newVarId s
  | .deleteVariable profileId varId => handleDeleteVariableFn profileId varId s
  | .addProject name newProjectId newProfileId => handleAddProjectFn name newProjectId newProfileId s
  | .renameProject projectId name => handleRenameProjectFn projectId name s
  | .deleteProject projectId => handleDeleteProjectFn projectId s
  | .addProfile projectId name newProfileId gen => handleAddProfileFn projectId name newProfileId gen s
  | .renameProfile projectId profileId name => handleRenameProfileFn projectId profileId name s
  | .deleteProfile projectId profileId => handleDeleteProfileFn projectId profileId s
  | .importVariables profileId pairs gen c => handleImportVariablesFn profileId pairs gen c s

/-- A sequence of store-controller steps. -/
def storeSteps (s : StoreState) : List StoreOp → StoreState
  | [] => s
  | op :: ops => storeSteps (storeStep s op) ops

/-- The last-wins value a key resolves to among a pair sequence (the
value of the final occurrence of the key). -/
def lastVal? (ps : List EnvPair) (k : Str) : Option Str :=
  (ps.reverse.find? (fun p => decide (p.key = k))).map (fun p => p.value)

/-- Patch a map entry with the last-wins value of its key, if the key
occurs among the pairs. -/
def patchEntry (ps : List EnvPair) (e : Str × EnvironmentVariable) : Str × EnvironmentVariable :=
  match lastVal? ps e.1 with
  | some val => (e.1, setValue e.2 val)
  | none => e

/-- The map entries the merge appends: one per distinct pair key not
among `ks`, in order of first occurrence, carrying a generated id and
the last-wins value of the key. -/
def newEntries (gen : Nat → Str) (ks : List Str) (c : Nat) : List EnvPair → VarMap
  | [] => []
  | p :: ps =>
    if p.key ∈ ks then newEntries gen ks c ps
    else (p.key, mergeNewVar (gen c) ⟨p.key, (lastVal? ps p.key).getD p.value⟩) ::
      newEntries gen (p.key :: ks) (c + 1) ps

/-- The value of the first variable carrying a key (well defined on
duplicate-free collections). -/
def firstVal? (vars : List EnvironmentVariable) (k : Str) : Option Str :=
  (vars.find? (fun v => decide (v.key = k))).map (fun v => v.value)

/-- The per-line parse rule in the spec's vocabulary: skip a line when,
after trimming, it is empty, starts with `#`, or its key part (the text
before the first `=`, the whole line when there is none) is empty;
otherwise produce the trimmed key part and the trimmed remainder after
the first `=`. -/
def specLineParse (line : Str) : Option EnvPair :=
  let t := trimStr line
  if t = [] then none
  else if t.head? = some '#' then none
  else if t.takeWhile (fun a => decide (a ≠ '=')) = [] then none
  else some ⟨trimStr (t.takeWhile (fun a => decide (a ≠ '='))),
             trimStr ((t.dropWhile (fun a => decide (a ≠ '='))).tail)⟩

/-- A key of the `^[A-Za-z0-9_]+$` form. -/
def goodKey (k : Str) : Prop :=
  k ≠ [] ∧ ∀ c ∈ k, c.isAlphanum = true ∨ c = '_'

instance : DecidablePred goodKey := fun k =>
  decidable_of_iff (k ≠ [] ∧ ∀ c ∈ k, c.isAlphanum = true ∨ c = '_') Iff.rfl

/-- Every project's `activeProfileId` resolves to a member of its
`profiles`. -/
def ActiveOK (s : StoreState) : Prop :=
  ∀ p ∈ s.projects, ∃ prof ∈ p.profiles, prof.id = p.activeProfileId

/-- Every project has at least one profile. -/
def ProfilesNonempty (s : StoreState) : Prop :=
  ∀ p ∈ s.projects, p.profiles ≠ []

/-- Profile ids are duplicate-free within each project. -/
def ProfileIdsNodup (s : StoreState) : Prop :=
  ∀ p ∈ s.projects, (p.profiles.map (fun prof => prof.id)).Nodup

def StoreWF (s : StoreState) : Prop := ProfilesNonempty s ∧ ProfileIdsNodup s

instance : DecidablePred ActiveOK := fun s => by
  unfold ActiveOK
  infer_instance

instance : DecidablePred ProfilesNonempty := fun s => by
  unfold ProfilesNonempty
  infer_instance

instance : DecidablePred ProfileIdsNodup := fun s => by
  unfold ProfileIdsNodup
  infer_instance

instance : DecidablePred StoreWF := fun s => by
  unfold StoreWF
  infer_instance

/-- A `profileChange` is safe when the addressed profile id is a member
of every matching project's profiles; all other operations carry no such
side condition. -/
def SafeProfileRefs (s : StoreState) : StoreOp → Prop
  | .profileChange projectId profileId =>
    ∀ p ∈ s.projects, p.id = projectId → ∃ prof ∈ p.profiles, prof.id = profileId
  | _ => True

/-- The generated profile id of an `addProfile` is fresh for every
matching project. -/
def FreshOk (s : StoreState) : StoreOp → Prop
  | .addProfile projectId _ newProfileId _ =>
    ∀ p ∈ s.projects, p.id = projectId → newProfileId ∉ p.profiles.map (fun prof => prof.id)
  | _ => True

/-- Freshness of generated ids along a run. -/
def FreshAlong (s : StoreState) : List StoreOp → Prop
  | [] => True
  | op :: ops => FreshOk s op ∧ FreshAlong (storeStep s op) ops

/-- The operation addresses an id that does not exist in the state
(for `addProject`, which references no existing entity, the predicate
is unsatisfiable). -/
def RefsMissing (s : StoreState) : StoreOp → Prop
  | .profileChange projectId _ => ∀ p ∈ s.projects, p.id ≠ projectId
  | .variableChange profileId varId _ =>
    ¬ ∃ p ∈ s.projects, some p.id = s.selectedProjectId ∧
      ∃ prof ∈ p.profiles, prof.id = profileId ∧ ∃ v ∈ prof.«variables», v.id = varId
  | .addVariable profileId _ =>
    ¬ ∃ p ∈ s.projects, some p.id = s.selectedProjectId ∧
      ∃ prof ∈ p.profiles, prof.id = profileId
  | .deleteVariable profileId varId =>
    ¬ ∃ p ∈ s.projects, some p.id = s.selectedProjectId ∧
      ∃ prof ∈ p.profiles, prof.id = profileId ∧ ∃ v ∈ prof.«variables», v.id = varId
  | .addProject _ _ _ => False
  | .renameProject projectId _ => ∀ p ∈ s.projects, p.id ≠ projectId
  | .deleteProject projectId => ∀ p ∈ s.projects, p.id ≠ projectId
  | .addProfile projectId _ _ _ => ∀ p ∈ s.projects, p.id ≠ projectId
  | .renameProfile projectId profileId _ =>
    ¬ ∃ p ∈ s.projects, p.id = projectId ∧ ∃ prof ∈ p.profiles, prof.id = profileId
  | .deleteProfile projectId profileId =>
    ¬ ∃ p ∈ s.projects, p.id = projectId ∧ ∃ prof ∈ p.profiles, prof.id = profileId
  | .importVariables profileId _ _ _ =>
    ¬ ∃ p ∈ s.projects, some p.id = s.selectedProjectId ∧
      ∃ prof ∈ p.profiles, prof.id = profileId

theorem list_map_eq_self {α : Type} {l : List α} {f : α → α} (h : ∀ x ∈ l, f x = x) :
    l.map f = l := by
  induction l with
  | nil => rfl
  | cons a as ih =>
    simp only [List.map_cons]
    rw [h a (by simp), ih (fun x hx => h x (by simp [hx]))]

theorem splitOnChar_ne_nil (c : Char) (l : List Char) : splitOnChar c l ≠ [] := by
  induction l with
  | nil => simp [splitOnChar]
  | cons a as ih =>
    by_cases h : a = c
    · simp [splitOnChar, h]
    · simp only [splitOnChar, if_neg h]
      cases hs : splitOnChar c as with
      | nil => simp
      | cons x xs => simp

theorem joinWith_splitOnChar (c : Char) (l : List Char) :
    joinWith c (splitOnChar c l) = l := by
  induction l with
  | nil => rfl
  | cons a as ih =>
    by_cases h : a = c
    · subst h
      simp only [splitOnChar, if_pos rfl]
      cases hs : splitOnChar a as with
      | nil => exact absurd hs (splitOnChar_ne_nil a as)
      | cons x xs =>
        rw [hs] at ih
        simp [joinWith, ih]
    · simp only [splitOnChar, if_neg h]
      cases hs : splitOnChar c as with
      | nil => exact absurd hs (splitOnChar_ne_nil c as)
      | cons x xs =>
        rw [hs] at ih
        cases xs with
        | nil => simpa [joinWith] using congrArg (a :: ·) ih
        | cons y ys =>
          simp only [joinWith] at ih ⊢
          simp [ih]

theorem splitOnChar_head_tail (c : Char) (l : List Char) :
    ∃ vps, splitOnChar c l = l.takeWhile (fun a => decide (a ≠ c)) :: vps ∧
      joinWith c vps = (l.dropWhile (fun a => decide (a ≠ c))).tail := by
  induction l with
  | nil => exact ⟨[], by simp [splitOnChar], by simp [joinWith]⟩
  | cons a as ih =>
    by_cases h : a = c
    · subst h
      refine ⟨splitOnChar a as, ?_, ?_⟩
      · simp [splitOnChar, List.takeWhile_cons]
      · simp [List.dropWhile_cons, joinWith_splitOnChar]
    · obtain ⟨vps, h1, h2⟩ := ih
      refine ⟨vps, ?_, ?_⟩
      · simp only [splitOnChar, if_neg h, h1, List.takeWhile_cons, decide_not]
        simp [h]
      · rw [h2]
        simp [List.dropWhile_cons, h]

theorem dropWhile_eq_self_of_head {p : Char → Bool} :
    ∀ {l : List Char}, (∀ a, l.head? = some a → p a = false) → l.dropWhile p = l
  | [], _ => rfl
  | a :: as, h => by
    have := h a rfl
    simp [List.dropWhile_cons, this]

theorem dropWhile_eq_self_of_length {p : Char → Bool} :
    ∀ {l : List Char}, (l.dropWhile p).length = l.length → l.dropWhile p = l
  | [], _ => rfl
  | a :: as, h => by
    by_cases hp : p a = true
    · exfalso
      rw [List.dropWhile_cons, if_pos hp] at h
      have := (List.dropWhile_sublist p (l := as)).length_le
      simp only [List.length_cons] at h
      omega
    · simp [List.dropWhile_cons, hp]

theorem head_not_of_dropWhile_eq_self {p : Char → Bool} {l : List Char}
    (h : l.dropWhile p = l) : ∀ a, l.head? = some a → p a = false := by
  intro a ha
  cases l with
  | nil => simp at ha
  | cons b bs =>
    simp only [List.head?_cons, Option.some.injEq] at ha
    subst ha
    by_contra hp
    rw [Bool.not_eq_false] at hp
    rw [List.dropWhile_cons, if_pos hp] at h
    have h1 := (List.dropWhile_sublist p (l := bs)).length_le
    have h2 := congrArg List.length h
    simp only [List.length_cons] at h2
    omega

theorem trimStr_parts {l : Str} (h : trimStr l = l) :
    l.dropWhile isWS = l ∧ l.reverse.dropWhile isWS = l.reverse := by
  unfold trimStr at h
  have hlen := congrArg List.length h
  have h1 : ((l.dropWhile isWS).reverse.dropWhile isWS).length ≤ (l.dropWhile isWS).length := by
    simpa using (List.dropWhile_sublist isWS (l := (l.dropWhile isWS).reverse)).length_le
  have h2 : (l.dropWhile isWS).length ≤ l.length := (List.dropWhile_sublist isWS (l := l)).length_le
  simp only [List.length_reverse] at hlen
  have e2 : (l.dropWhile isWS).length = l.length := by omega
  have d1 : l.dropWhile isWS = l := dropWhile_eq_self_of_length e2
  refine ⟨d1, ?_⟩
  rw [d1] at h
  have e3 : (l.reverse.dropWhile isWS).length = l.reverse.length := by
    have := congrArg List.length h
    simp at this
    simp [this]
  exact dropWhile_eq_self_of_length e3

theorem trimStr_of_parts {l : Str} (h1 : l.dropWhile isWS = l)
    (h2 : l.reverse.dropWhile isWS = l.reverse) : trimStr l = l := by
  unfold trimStr
  rw [h1, h2, List.reverse_reverse]

theorem isWS_true_cases {c : Char} (h : isWS c = true) :
    c = ' ' ∨ c = '\t' ∨ c = '\n' ∨ c = '\r' := by
  unfold isWS at h
  simp only [Bool.or_eq_true, decide_eq_true_eq] at h
  tauto

theorem goodKeyChar_not_ws {c : Char} (h : c.isAlphanum = true ∨ c = '_') : isWS c = false := by
  by_contra hw
  rw [Bool.not_eq_false] at hw
  rcases isWS_true_cases hw with h1 | h1 | h1 | h1 <;> subst h1 <;>
    rcases h with h | h <;> revert h <;> decide

theorem goodKeyChar_ne {c : Char} (h : c.isAlphanum = true ∨ c = '_') :
    c ≠ '=' ∧ c ≠ '#' ∧ c ≠ '\n' := by
  refine ⟨?_, ?_, ?_⟩ <;> rintro rfl <;> rcases h with h | h <;> revert h <;> decide

theorem goodKey_trim {k : Str} (hk : goodKey k) : trimStr k = k := by
  obtain ⟨-, hall⟩ := hk
  refine trimStr_of_parts (dropWhile_eq_self_of_head ?_) (dropWhile_eq_self_of_head ?_)
  · intro a ha
    exact goodKeyChar_not_ws (hall a (by
      cases k with
      | nil => simp at ha
      | cons b bs => simp at ha; simp [ha]))
  · intro a ha
    refine goodKeyChar_not_ws (hall a ?_)
    have : a ∈ k.reverse := by
      cases hr : k.reverse with
      | nil => rw [hr] at ha; simp at ha
      | cons b bs => rw [hr] at ha; simp at ha; simp [hr, ha]
    simpa using this

theorem trimStr_goodLine {key value : Str} (hk : goodKey key) (hv : trimStr value = value) :
    trimStr (key ++ '=' :: value) = key ++ '=' :: value := by
  obtain ⟨hne, hall⟩ := hk
  refine trimStr_of_parts (dropWhile_eq_self_of_head ?_) (dropWhile_eq_self_of_head ?_)
  · intro a ha
    cases key with
    | nil => exact absurd rfl hne
    | cons b bs =>
      simp only [List.cons_append, List.head?_cons, Option.some.injEq] at ha
      subst ha
      exact goodKeyChar_not_ws (hall b (by simp))
  · intro a ha
    rw [List.reverse_append, List.reverse_cons] at ha
    cases hval : value.reverse with
    | nil =>
      rw [hval] at ha
      simp only [List.nil_append, List.cons_append, List.head?_cons, Option.some.injEq] at ha
      subst ha
      decide
    | cons b bs =>
      rw [hval] at ha
      simp only [List.cons_append, List.head?_cons, Option.some.injEq] at ha
      subst ha
      have hpart := (trimStr_parts hv).2
      exact head_not_of_dropWhile_eq_self hpart b (by rw [hval]; rfl)

theorem takeWhile_goodKey (key value : Str) (hall : ∀ c ∈ key, c.isAlphanum = true ∨ c = '_') :
    (key ++ '=' :: value).takeWhile (fun a => decide (a ≠ '=')) = key ∧
    (key ++ '=' :: value).dropWhile (fun a => decide (a ≠ '=')) = '=' :: value := by
  induction key with
  | nil => simp [List.takeWhile_cons, List.dropWhile_cons]
  | cons b bs ih =>
    have hb : b ≠ '=' := (goodKeyChar_ne (hall b (by simp))).1
    have := ih (fun c hc => hall c (by simp [hc]))
    simp only [List.cons_append, List.takeWhile_cons, List.dropWhile_cons, decide_not] at this ⊢
    simp [hb, this.1, this.2]

theorem specLineParse_goodLine {key value : Str} (hk : goodKey key) (hv : trimStr value = value) :
    specLineParse (key ++ '=' :: value) = some ⟨key, value⟩ := by
  unfold specLineParse
  rw [trimStr_goodLine hk hv]
  obtain ⟨hne, hall⟩ := hk
  obtain ⟨htake, hdrop⟩ := takeWhile_goodKey key value hall
  have hnnil : key ++ '=' :: value ≠ [] := by simp
  rw [if_neg hnnil]
  have hhead : (key ++ '=' :: value).head? ≠ some '#' := by
    cases key with
    | nil => exact absurd rfl hne
    | cons b bs =>
      have := (goodKeyChar_ne (hall b (by simp))).2.1
      simp [this]
  rw [if_neg hhead, htake, if_neg hne, hdrop]
  simp [goodKey_trim ⟨hne, hall⟩, hv]

theorem parseLineStep_eq (acc : List EnvPair) (line : Str) :
    parseLineStep acc line = acc ++ (specLineParse line).toList := by
  unfold parseLineStep specLineParse
  by_cases h1 : trimStr line = []
  · simp [h1]
  · rw [if_neg h1, if_neg h1]
    by_cases h2 : (trimStr line).head? = some '#'
    · simp [h2]
    · rw [if_neg h2, if_neg h2]
      obtain ⟨vps, hsplit, hjoin⟩ := splitOnChar_head_tail '=' (trimStr line)
      rw [hsplit]
      by_cases h3 : (trimStr line).takeWhile (fun a => decide (a ≠ '=')) = []
      all_goals simp [h3, hjoin]
      all_goals split <;> simp

theorem foldl_parseLineStep (ls : List Str) (acc : List EnvPair) :
    ls.foldl parseLineStep acc = acc ++ ls.filterMap specLineParse := by
  induction ls generalizing acc with
  | nil => simp
  | cons l ls ih =>
    rw [List.foldl_cons, ih, parseLineStep_eq, List.filterMap_cons]
    cases specLineParse l <;> simp

theorem parseEnvLines_eq_filterMap (lines : List Str) :
    parseEnvLines lines = lines.filterMap specLineParse := by
  unfold parseEnvLines
  simpa using foldl_parseLineStep lines []

theorem splitOnChar_not_mem {c : Char} : ∀ {l : List Char}, c ∉ l → splitOnChar c l = [l]
  | [], _ => rfl
  | a :: as, h => by
    have ha : a ≠ c := fun e => h (by simp [e])
    have hrec : splitOnChar c as = [as] :=
      splitOnChar_not_mem (fun hm => h (List.mem_cons_of_mem a hm))
    simp [splitOnChar, ha, hrec]

theorem splitOnChar_append {c : Char} {l₁ l₂ : List Char} (h : c ∉ l₁) :
    splitOnChar c (l₁ ++ c :: l₂) = l₁ :: splitOnChar c l₂ := by
  induction l₁ with
  | nil => simp [splitOnChar]
  | cons a as ih =>
    have ha : a ≠ c := fun e => h (by simp [e])
    have hrec := ih (fun hm => h (List.mem_cons_of_mem a hm))
    simp [splitOnChar, ha, hrec]

theorem goodKey_no_nl {k : Str} (hk : goodKey k) : '\n' ∉ k := by
  intro hm
  have := hk.2 '\n' hm
  revert this
  decide

/-- C9 counterexample: a collection whose single value carries a leading
space (keys alphanumeric, values free of line breaks) does not round-trip:
the parse step trims the value. -/
theorem roundtrip_counterexample :
    parseEnv (serializeVars [⟨"i".toList, "A".toList, " x".toList, false, VariableType.TEXT⟩]) =
      [⟨"A".toList, "x".toList⟩] ∧
    ([⟨"A".toList, "x".toList⟩] : List EnvPair) ≠ [⟨"A".toList, " x".toList⟩] := by
  constructor
  · decide
  · decide

/-- C9 (amended): for a collection whose keys match `^[A-Za-z0-9_]+$` and
whose values contain no line break and carry no leading or trailing
whitespace, parsing the serialization returns exactly the key/value
pairs in collection order. -/
theorem parse_serialize_roundtrip (vars : List EnvironmentVariable)
    (h : ∀ v ∈ vars, goodKey v.key ∧ '\n' ∉ v.value ∧ trimStr v.value = v.value) :
    parseEnv (serializeVars vars) = vars.map (fun v => ⟨v.key, v.value⟩) := by
  induction vars with
  | nil => decide
  | cons v vs ih =>
    obtain ⟨hk, hnl, hv⟩ := h v (by simp)
    have hline : '\n' ∉ v.key ++ '=' :: v.value := by
      intro hm
      rcases List.mem_append.1 hm with hm | hm
      · exact goodKey_no_nl hk hm
      · rcases List.mem_cons.1 hm with hm | hm
        · exact absurd hm.symm (by decide)
        · exact hnl hm
    cases vs with
    | nil =>
      unfold parseEnv serializeVars
      simp only [List.map_cons, List.map_nil, joinWith]
      rw [splitOnChar_not_mem hline, parseEnvLines_eq_filterMap]
      simp [specLineParse_goodLine hk hv]
    | cons w ws =>
      have hrest := ih (fun u hu => h u (by simp [hu]))
      unfold parseEnv serializeVars at hrest ⊢
      simp only [List.map_cons, joinWith]
      rw [splitOnChar_append hline, parseEnvLines_eq_filterMap, List.filterMap_cons,
        specLineParse_goodLine hk hv]
      rw [parseEnvLines_eq_filterMap] at hrest
      simp only [List.map_cons] at hrest
      simp [hrest]

/-- C9 witness. -/
theorem parse_serialize_roundtrip_witness :
    parseEnv (serializeVars
      [⟨"1".toList, "API_URL".toList, "http://x".toList, false, VariableType.URL⟩,
       ⟨"2".toList, "JWT_SECRET".toList, "".toList, true, VariableType.JWT⟩]) =
      [⟨"API_URL".toList, "http://x".toList⟩, ⟨"JWT_SECRET".toList, "".toList⟩] :=
  parse_serialize_roundtrip _ (by decide)

/-- C1 (amended): Parse splits the text on line breaks and, per line,
skips it exactly when, after trimming, it is empty, its first character
is `#`, or its key part (the text before the first `=`, the whole line
when there is none) is empty; every other line — including a line with
no `=`, which yields an empty value — contributes the trimmed key part
and the trimmed remainder after the first `=`, in input line order. -/
theorem parse_line_characterization (text : Str) :
    parseEnv text = (splitOnChar '\n' text).filterMap specLineParse :=
  parseEnvLines_eq_filterMap _

/-- C1 counterexample: a non-empty, non-comment line with no `=` is not
skipped; it parses to a pair with an empty value. -/
theorem parse_no_equals_counterexample :
    parseEnv "FOO".toList = [⟨"FOO".toList, []⟩] ∧ parseEnv "FOO".toList ≠ [] := by
  constructor
  · decide
  · decide

theorem diff_foldl (vars : List EnvironmentVariable) :
    ∀ (I : List EnvPair) (d : ImportDiff),
      I.foldl (diffStep vars) d =
        ⟨d.newVars ++ I.filter (fun p => (envLookup vars p.key).isNone),
         d.updatedVars ++ I.filterMap (fun p =>
           match envLookup vars p.key with
           | none => none
           | some old => if old = p.value then none else some ⟨p.key, p.value, old⟩)⟩
  | [], d => by simp
  | p :: I, d => by
    rw [List.foldl_cons, diff_foldl vars I]
    unfold diffStep
    cases hl : envLookup vars p.key with
    | none => simp [hl]
    | some old =>
      by_cases hv : old = p.value
      · simp [hl, hv]
      · simp [hl, hv]

/-- C2: the diff classifies every imported pair into exactly one of the
three classes (new: key absent from the existing collection; updated:
key present with a different last-wins value, recording it as
`oldValue`; unchanged: key present with an equal value), and returns
exactly the new and updated lists, in input order, excluding the
unchanged pairs from both. -/
theorem diff_partition (vars : List EnvironmentVariable) (I : List EnvPair) :
    (diffVars vars I).newVars = I.filter (fun p => (envLookup vars p.key).isNone) ∧
    (diffVars vars I).updatedVars = I.filterMap (fun p =>
      match envLookup vars p.key with
      | none => none
      | some old => if old = p.value then none else some ⟨p.key, p.value, old⟩) ∧
    (∀ k, envLookup vars k = none ↔ ∀ v ∈ vars, v.key ≠ k) ∧
    (∀ p ∈ I,
      (envLookup vars p.key = none ∧
        ¬(∃ old, envLookup vars p.key = some old ∧ old ≠ p.value) ∧
        envLookup vars p.key ≠ some p.value) ∨
      (envLookup vars p.key ≠ none ∧
        (∃ old, envLookup vars p.key = some old ∧ old ≠ p.value) ∧
        envLookup vars p.key ≠ some p.value) ∨
      (envLookup vars p.key ≠ none ∧
        ¬(∃ old, envLookup vars p.key = some old ∧ old ≠ p.value) ∧
        envLookup vars p.key = some p.value)) := by
  refine ⟨?_, ?_, ?_, ?_⟩
  · unfold diffVars
    rw [diff_foldl]
    simp
  · unfold diffVars
    rw [diff_foldl]
    simp
  · intro k
    unfold envLookup
    simp [List.find?_eq_none]
  · intro p hp
    cases hl : envLookup vars p.key with
    | none =>
      refine Or.inl ⟨rfl, ?_, by simp⟩
      rintro ⟨old, hsome, -⟩
      simp at hsome
    | some old =>
      by_cases hv : old = p.value
      · subst hv
        exact Or.inr (Or.inr ⟨by simp, by rintro ⟨o, ho, hne⟩; simp at ho; exact hne ho.symm, rfl⟩)
      · exact Or.inr (Or.inl ⟨by simp, ⟨old, rfl, hv⟩, by simp [hv]⟩)

/-- C2 witness: a concrete instantiation of the diff classification. -/
theorem diff_partition_witness :
    (diffVars [] [⟨"K".toList, "v".toList⟩]).newVars = [⟨"K".toList, "v".toList⟩] := by
  have h := diff_partition [] [⟨"K".toList, "v".toList⟩]
  rw [h.1]
  decide

theorem setValue_setValue (v : EnvironmentVariable) (a b : Str) :
    setValue (setValue v a) b = setValue v b := rfl

theorem setValue_self (v : EnvironmentVariable) : setValue v v.value = v := rfl

theorem lastVal?_cons (p : EnvPair) (ps : List EnvPair) (k : Str) :
    lastVal? (p :: ps) k =
      match lastVal? ps k with
      | some v => some v
      | none => if p.key = k then some p.value else none := by
  unfold lastVal?
  rw [List.reverse_cons, List.find?_append]
  cases hf : ps.reverse.find? (fun q => decide (q.key = k)) with
  | none =>
    by_cases hk : p.key = k
    · simp [List.find?, hk, Option.or]
    · simp [List.find?, hk, Option.or]
  | some q => simp [Option.or]

theorem lastVal?_eq_none (ps : List EnvPair) (k : Str) :
    lastVal? ps k = none ↔ ∀ p ∈ ps, p.key ≠ k := by
  unfold lastVal?
  simp [List.find?_eq_none]

theorem lastVal?_isSome (ps : List EnvPair) (k : Str) :
    (lastVal? ps k).isSome ↔ k ∈ ps.map (fun p => p.key) := by
  unfold lastVal?
  rw [Option.isSome_map', List.find?_isSome]
  constructor
  · rintro ⟨p, hp, hk⟩
    rw [decide_eq_true_eq] at hk
    exact List.mem_map.2 ⟨p, List.mem_reverse.1 hp, hk⟩
  · intro h
    obtain ⟨p, hp, hk⟩ := List.mem_map.1 h
    exact ⟨p, List.mem_reverse.2 hp, by simp [hk]⟩

theorem hasKey_true_iff (m : VarMap) (k : Str) : hasKey m k = true ↔ k ∈ keysOf m := by
  unfold hasKey keysOf
  rw [List.any_eq_true]
  constructor
  · rintro ⟨e, he, hk⟩
    rw [decide_eq_true_eq] at hk
    exact List.mem_map.2 ⟨e, he, hk⟩
  · intro h
    obtain ⟨e, he, hk⟩ := List.mem_map.1 h
    exact ⟨e, he, by simp [hk]⟩

theorem mem_keysOf {m : VarMap} {k : Str} : k ∈ keysOf m ↔ ∃ e ∈ m, e.1 = k := by
  unfold keysOf
  constructor
  · intro h
    obtain ⟨e, he, hk⟩ := List.mem_map.1 h
    exact ⟨e, he, hk⟩
  · rintro ⟨e, he, hk⟩
    exact List.mem_map.2 ⟨e, he, hk⟩

theorem hasKey_false_iff (m : VarMap) (k : Str) : hasKey m k = false ↔ ∀ e ∈ m, e.1 ≠ k := by
  constructor
  · intro h e he hk
    have ht : hasKey m k = true := (hasKey_true_iff m k).2 (mem_keysOf.2 ⟨e, he, hk⟩)
    rw [h] at ht
    exact Bool.false_ne_true ht
  · intro h
    cases hx : hasKey m k with
    | false => rfl
    | true =>
      obtain ⟨e, hem, hk⟩ := mem_keysOf.1 ((hasKey_true_iff m k).1 hx)
      exact absurd hk (h e hem)

theorem keysOf_mapUpdateValue (m : VarMap) (k : Str) (val : Str) :
    keysOf (mapUpdateValue m k val) = keysOf m := by
  unfold keysOf mapUpdateValue
  rw [List.map_map]
  apply List.map_congr_left
  intro e he
  by_cases hk : e.1 = k <;> simp [hk]

theorem patchEntry_nil (e : Str × EnvironmentVariable) : patchEntry [] e = e := rfl

theorem patchEntry_fst (ps : List EnvPair) (e : Str × EnvironmentVariable) :
    (patchEntry ps e).1 = e.1 := by
  unfold patchEntry
  cases lastVal? ps e.1 <;> rfl

theorem patchEntry_cons (p : EnvPair) (ps : List EnvPair) (e : Str × EnvironmentVariable) :
    patchEntry (p :: ps) e =
      patchEntry ps (if e.1 = p.key then (e.1, setValue e.2 p.value) else e) := by
  unfold patchEntry
  rw [lastVal?_cons]
  cases hl : lastVal? ps e.1 with
  | some v =>
    by_cases hk : e.1 = p.key
    · simp only [if_pos hk]
      rw [show ((e.1, setValue e.2 p.value) : Str × EnvironmentVariable).1 = e.1 from rfl, hl]
      simp [setValue_setValue]
    · simp only [if_neg hk, hl]
  | none =>
    by_cases hk : e.1 = p.key
    · simp only [if_pos hk]
      rw [show ((e.1, setValue e.2 p.value) : Str × EnvironmentVariable).1 = e.1 from rfl, hl]
      simp [hk]
    · have : ¬ p.key = e.1 := fun h => hk h.symm
      simp only [if_neg hk, hl, if_neg this]

theorem patchEntry_idem (ps : List EnvPair) (e : Str × EnvironmentVariable) :
    patchEntry ps (patchEntry ps e) = patchEntry ps e := by
  unfold patchEntry
  cases hl : lastVal? ps e.1 with
  | none => simp [hl]
  | some v =>
    rw [show ((e.1, setValue e.2 v) : Str × EnvironmentVariable).1 = e.1 from rfl, hl]
    simp [setValue_setValue]

theorem newEntries_congr (gen : Nat → Str) :
    ∀ (ps : List EnvPair) (ks ks' : List Str) (c : Nat),
      (∀ k, k ∈ ks ↔ k ∈ ks') → newEntries gen ks c ps = newEntries gen ks' c ps
  | [], _, _, _, _ => rfl
  | p :: ps, ks, ks', c, h => by
    unfold newEntries
    by_cases hk : p.key ∈ ks
    · rw [if_pos hk, if_pos ((h p.key).1 hk), newEntries_congr gen ps ks ks' c h]
    · rw [if_neg hk, if_neg (fun hx => hk ((h p.key).2 hx)),
        newEntries_congr gen ps (p.key :: ks) (p.key :: ks') (c + 1) (by
          intro k
          simp only [List.mem_cons]
          exact or_congr Iff.rfl (h k))]

theorem newEntries_inv (gen : Nat → Str) :
    ∀ (ps : List EnvPair) (ks : List Str) (c : Nat),
      ∀ e ∈ newEntries gen ks c ps, e.1 = e.2.key
  | [], _, _ => by simp [newEntries]
  | p :: ps, ks, c => by
    unfold newEntries
    by_cases hk : p.key ∈ ks
    · rw [if_pos hk]
      exact newEntries_inv gen ps ks c
    · rw [if_neg hk]
      intro e he
      rcases List.mem_cons.1 he with he | he
      · subst he; rfl
      · exact newEntries_inv gen ps (p.key :: ks) (c + 1) e he

theorem newEntries_fresh (gen : Nat → Str) :
    ∀ (ps : List EnvPair) (ks : List Str) (c : Nat),
      (keysOf (newEntries gen ks c ps)).Nodup ∧
        ∀ k ∈ keysOf (newEntries gen ks c ps), k ∉ ks
  | [], _, _ => by simp [newEntries, keysOf]
  | p :: ps, ks, c => by
    unfold newEntries
    by_cases hk : p.key ∈ ks
    · rw [if_pos hk]
      exact newEntries_fresh gen ps ks c
    · rw [if_neg hk]
      obtain ⟨hnd, hfr⟩ := newEntries_fresh gen ps (p.key :: ks) (c + 1)
      refine ⟨?_, ?_⟩
      · unfold keysOf
        rw [List.map_cons]
        refine List.nodup_cons.2 ⟨?_, hnd⟩
        intro hmem
        exact hfr p.key hmem (by simp)
      · intro k hkm
        unfold keysOf at hkm
        rw [List.map_cons] at hkm
        rcases List.mem_cons.1 hkm with hkm | hkm
        · subst hkm; exact hk
        · intro hx
          exact hfr k hkm (by simp [hx])

theorem newEntries_contains (gen : Nat → Str) :
    ∀ (ps : List EnvPair) (ks : List Str) (c : Nat) (k : Str),
      k ∈ ps.map (fun p => p.key) → k ∉ ks → k ∈ keysOf (newEntries gen ks c ps)
  | [], _, _, _, h, _ => by simp at h
  | p :: ps, ks, c, k, h, hks => by
    unfold newEntries
    rw [List.map_cons] at h
    rcases List.mem_cons.1 h with hk | hk
    · subst hk
      rw [if_neg hks]
      unfold keysOf
      rw [List.map_cons]
      exact List.mem_cons_self _ _
    · by_cases hpk : p.key ∈ ks
      · rw [if_pos hpk]
        exact newEntries_contains gen ps ks c k hk hks
      · rw [if_neg hpk]
        by_cases hkp : k = p.key
        · subst hkp
          unfold keysOf
          rw [List.map_cons]
          exact List.mem_cons_self _ _
        · have hrec := newEntries_contains gen ps (p.key :: ks) (c + 1) k hk
            (by simp [hks, hkp])
          unfold keysOf at hrec ⊢
          rw [List.map_cons]
          exact List.mem_cons_of_mem _ hrec

theorem newEntries_empty (gen : Nat → Str) :
    ∀ (ps : List EnvPair) (ks : List Str) (c : Nat),
      (∀ p ∈ ps, p.key ∈ ks) → newEntries gen ks c ps = []
  | [], _, _, _ => rfl
  | p :: ps, ks, c, h => by
    unfold newEntries
    rw [if_pos (h p (by simp))]
    exact newEntries_empty gen ps ks c (fun q hq => h q (by simp [hq]))

theorem newEntries_lastVal (gen : Nat → Str) :
    ∀ (ps : List EnvPair) (ks : List Str) (c : Nat),
      ∀ e ∈ newEntries gen ks c ps, lastVal? ps e.1 = some e.2.value
  | [], _, _ => by simp [newEntries]
  | p :: ps, ks, c => by
    unfold newEntries
    by_cases hk : p.key ∈ ks
    · rw [if_pos hk]
      intro e he
      have := newEntries_lastVal gen ps ks c e he
      rw [lastVal?_cons, this]
    · rw [if_neg hk]
      intro e he
      rcases List.mem_cons.1 he with he | he
      · subst he
        rw [lastVal?_cons]
        cases hl : lastVal? ps p.key with
        | some v => simp [mergeNewVar, hl]
        | none => simp [mergeNewVar, hl]
      · have := newEntries_lastVal gen ps (p.key :: ks) (c + 1) e he
        rw [lastVal?_cons, this]

theorem mergeLoop_cons (gen : Nat → Str) (m : VarMap) (c : Nat) (p : EnvPair)
    (ps : List EnvPair) :
    mergeLoop gen (m, c) (p :: ps) =
      if hasKey m p.key = true then mergeLoop gen (mapUpdateValue m p.key p.value, c) ps
      else mergeLoop gen (m ++ [(p.key, mergeNewVar (gen c) p)], c + 1) ps := by
  rw [mergeLoop.eq_def]

theorem newEntries_cons (gen : Nat → Str) (ks : List Str) (c : Nat) (p : EnvPair)
    (ps : List EnvPair) :
    newEntries gen ks c (p :: ps) =
      if p.key ∈ ks then newEntries gen ks c ps
      else (p.key, mergeNewVar (gen c) ⟨p.key, (lastVal? ps p.key).getD p.value⟩) ::
        newEntries gen (p.key :: ks) (c + 1) ps := by
  rw [newEntries.eq_def]

theorem mergeLoop_eq (gen : Nat → Str) :
    ∀ (ps : List EnvPair) (m : VarMap) (c : Nat),
      mergeLoop gen (m, c) ps =
        (m.map (patchEntry ps) ++ newEntries gen (keysOf m) c ps,
         c + (newEntries gen (keysOf m) c ps).length)
  | [], m, c => by
    unfold mergeLoop newEntries
    rw [list_map_eq_self (fun e _ => patchEntry_nil e)]
    simp
  | p :: ps, m, c => by
    by_cases hk : hasKey m p.key = true
    · rw [mergeLoop_cons, if_pos hk, mergeLoop_eq gen ps (mapUpdateValue m p.key p.value) c,
        keysOf_mapUpdateValue]
      have hmap : (mapUpdateValue m p.key p.value).map (patchEntry ps) =
          m.map (patchEntry (p :: ps)) := by
        unfold mapUpdateValue
        rw [List.map_map]
        apply List.map_congr_left
        intro e _
        exact (patchEntry_cons p ps e).symm
      have hne : newEntries gen (keysOf m) c (p :: ps) = newEntries gen (keysOf m) c ps := by
        rw [newEntries_cons, if_pos ((hasKey_true_iff m p.key).1 hk)]
      rw [hmap, hne]
    · have hkf : hasKey m p.key = false := by
        cases hx : hasKey m p.key
        · rfl
        · exact absurd hx hk
      rw [mergeLoop_cons, if_neg hk,
        mergeLoop_eq gen ps (m ++ [(p.key, mergeNewVar (gen c) p)]) (c + 1)]
      have hkeys : keysOf (m ++ [(p.key, mergeNewVar (gen c) p)]) = keysOf m ++ [p.key] := by
        unfold keysOf
        rw [List.map_append]
        rfl
      have hmemfalse : ∀ e ∈ m, e.1 ≠ p.key := (hasKey_false_iff m p.key).1 hkf
      have hnotin : p.key ∉ keysOf m := by
        intro hx
        obtain ⟨e, he, hke⟩ := mem_keysOf.1 hx
        exact hmemfalse e he hke
      have hcongr : newEntries gen (keysOf m ++ [p.key]) (c + 1) ps =
          newEntries gen (p.key :: keysOf m) (c + 1) ps :=
        newEntries_congr gen ps _ _ _ (by
          intro k
          rw [List.mem_append, List.mem_cons]
          simp [or_comm])
      have hmap1 : (m ++ [(p.key, mergeNewVar (gen c) p)]).map (patchEntry ps) =
          m.map (patchEntry (p :: ps)) ++ [patchEntry ps (p.key, mergeNewVar (gen c) p)] := by
        rw [List.map_append]
        congr 1
        apply List.map_congr_left
        intro e he
        rw [patchEntry_cons p ps e, if_neg (hmemfalse e he)]
      have hpatch : patchEntry ps (p.key, mergeNewVar (gen c) p) =
          (p.key, mergeNewVar (gen c) ⟨p.key, (lastVal? ps p.key).getD p.value⟩) := by
        show (match lastVal? ps p.key with
          | some val => (p.key, setValue (mergeNewVar (gen c) p) val)
          | none => (p.key, mergeNewVar (gen c) p)) =
          (p.key, mergeNewVar (gen c) ⟨p.key, (lastVal? ps p.key).getD p.value⟩)
        cases hl : lastVal? ps p.key with
        | some v => rfl
        | none => rfl
      rw [hkeys, hcongr, hmap1, hpatch, newEntries_cons, if_neg hnotin]
      rw [List.append_assoc, List.singleton_append]
      simp only [Prod.mk.injEq, List.length_cons]
      exact ⟨by first | rfl | trivial, by omega⟩

theorem mapSet_inv {m : VarMap} {v : EnvironmentVariable}
    (hinv : ∀ e ∈ m, e.1 = e.2.key) (hnd : (keysOf m).Nodup) :
    (∀ e ∈ mapSet m v.key v, e.1 = e.2.key) ∧ (keysOf (mapSet m v.key v)).Nodup := by
  unfold mapSet
  by_cases hk : hasKey m v.key = true
  · rw [if_pos hk]
    refine ⟨?_, ?_⟩
    · intro e he
      obtain ⟨e₀, he₀, heq⟩ := List.mem_map.1 he
      by_cases h0 : e₀.1 = v.key
      · rw [if_pos h0] at heq
        rw [← heq]
        simp [h0]
      · rw [if_neg h0] at heq
        rw [← heq]
        exact hinv e₀ he₀
    · have : keysOf (m.map (fun e => if e.1 = v.key then (e.1, v) else e)) = keysOf m := by
        unfold keysOf
        rw [List.map_map]
        apply List.map_congr_left
        intro e _
        by_cases h0 : e.1 = v.key <;> simp [h0]
      rw [this]
      exact hnd
  · rw [if_neg hk]
    have hkf : hasKey m v.key = false := by
      cases hx : hasKey m v.key
      · rfl
      · exact absurd hx hk
    have hnotin : v.key ∉ keysOf m := by
      intro hx
      obtain ⟨e, he, hke⟩ := mem_keysOf.1 hx
      exact (hasKey_false_iff m v.key).1 hkf e he hke
    refine ⟨?_, ?_⟩
    · intro e he
      rcases List.mem_append.1 he with he | he
      · exact hinv e he
      · rcases List.mem_cons.1 he with he | he
        · subst he; rfl
        · simp at he
    · unfold keysOf
      rw [List.map_append]
      rw [List.nodup_append]
      refine ⟨hnd, by simp, ?_⟩
      intro k hkm hkm'
      simp at hkm'
      subst hkm'
      exact hnotin hkm

theorem foldl_mapSet_inv :
    ∀ (vars : List EnvironmentVariable) (m : VarMap),
      (∀ e ∈ m, e.1 = e.2.key) → (keysOf m).Nodup →
      (∀ e ∈ vars.foldl (fun m v => mapSet m v.key v) m, e.1 = e.2.key) ∧
        (keysOf (vars.foldl (fun m v => mapSet m v.key v) m)).Nodup
  | [], m, hinv, hnd => ⟨hinv, hnd⟩
  | v :: vs, m, hinv, hnd => by
    rw [List.foldl_cons]
    obtain ⟨h1, h2⟩ := mapSet_inv (v := v) hinv hnd
    exact foldl_mapSet_inv vs (mapSet m v.key v) h1 h2

theorem buildVarMap_inv (vars : List EnvironmentVariable) :
    (∀ e ∈ buildVarMap vars, e.1 = e.2.key) ∧ (keysOf (buildVarMap vars)).Nodup := by
  unfold buildVarMap
  exact foldl_mapSet_inv vars [] (by simp) (by simp [keysOf])

theorem foldl_mapSet_fresh :
    ∀ (vars : List EnvironmentVariable) (m : VarMap),
      (vars.map (fun v => v.key)).Nodup → (∀ v ∈ vars, v.key ∉ keysOf m) →
      vars.foldl (fun m v => mapSet m v.key v) m = m ++ vars.map (fun v => (v.key, v))
  | [], m, _, _ => by simp
  | v :: vs, m, hnd, hfresh => by
    rw [List.foldl_cons]
    have hkf : hasKey m v.key = false := by
      rw [hasKey_false_iff]
      intro e he hke
      exact hfresh v (by simp) (mem_keysOf.2 ⟨e, he, hke⟩)
    have hset : mapSet m v.key v = m ++ [(v.key, v)] := by
      unfold mapSet
      rw [if_neg (by rw [hkf]; exact Bool.false_ne_true)]
    rw [hset, foldl_mapSet_fresh vs (m ++ [(v.key, v)]) (by
        rw [List.map_cons] at hnd
        exact (List.nodup_cons.1 hnd).2) (by
        intro u hu hmem
        unfold keysOf at hmem
        rw [List.map_append] at hmem
        rcases List.mem_append.1 hmem with hmem | hmem
        · exact hfresh u (by simp [hu]) hmem
        · simp at hmem
          rw [List.map_cons] at hnd
          exact (List.nodup_cons.1 hnd).1 (hmem ▸ List.mem_map.2 ⟨u, hu, hmem ▸ rfl⟩))]
    rw [List.map_cons, List.append_assoc, List.singleton_append]

theorem buildVarMap_of_nodup (vars : List EnvironmentVariable)
    (h : (vars.map (fun v => v.key)).Nodup) :
    buildVarMap vars = vars.map (fun v => (v.key, v)) := by
  unfold buildVarMap
  simpa using foldl_mapSet_fresh vars [] h (by simp [keysOf])

theorem mergeVars_eq (gen : Nat → Str) (c : Nat) (vars : List EnvironmentVariable)
    (pairs : List EnvPair) :
    mergeVars gen c vars pairs =
      ((buildVarMap vars).map (patchEntry pairs) ++
        newEntries gen (keysOf (buildVarMap vars)) c pairs).map (fun e => e.2) := by
  unfold mergeVars
  rw [mergeLoop_eq]

theorem mergeVars_nodup_spec (gen : Nat → Str) (c : Nat) (vars : List EnvironmentVariable)
    (pairs : List EnvPair) (h : (vars.map (fun v => v.key)).Nodup) :
    mergeVars gen c vars pairs =
      vars.map (fun v =>
        match lastVal? pairs v.key with
        | some val => setValue v val
        | none => v) ++
      (newEntries gen (vars.map (fun v => v.key)) c pairs).map (fun e => e.2) := by
  rw [mergeVars_eq, buildVarMap_of_nodup vars h]
  have hkeys : keysOf (vars.map (fun v => (v.key, v))) = vars.map (fun v => v.key) := by
    unfold keysOf
    rw [List.map_map]
    rfl
  rw [hkeys, List.map_append, List.map_map, List.map_map]
  congr 1
  apply List.map_congr_left
  intro v _
  show (patchEntry pairs (v.key, v)).2 = _
  unfold patchEntry
  cases hl : lastVal? pairs v.key with
  | some val => rfl
  | none => rfl

/-- C3 (amended): on a profile whose variable keys are pairwise
distinct, Merge rewrites each variable whose key occurs among the pairs
to carry the value of the last such pair while preserving its id,
isSecret and type, leaves every other variable unchanged, and appends,
for each distinct pair key matching no variable of the profile, in order
of first occurrence, one new variable carrying a generated id, that key,
the value of its last pair, `isSecret = false` and `type = TEXT`. -/
theorem merge_update_append (gen : Nat → Str) (c : Nat) (prof : Profile)
    (pairs : List EnvPair) (h : (prof.«variables».map (fun v => v.key)).Nodup) :
    (mergeProfile gen c prof pairs).«variables» =
      prof.«variables».map (fun v =>
        match lastVal? pairs v.key with
        | some val => setValue v val
        | none => v) ++
      (newEntries gen (prof.«variables».map (fun v => v.key)) c pairs).map (fun e => e.2) :=
  mergeVars_nodup_spec gen c prof.«variables» pairs h

/-- C3 witness. -/
theorem merge_update_append_witness :
    (mergeProfile (fun _ => "n".toList) 0
        ⟨"p".toList, "dev".toList,
          [⟨"a".toList, "K".toList, "x".toList, true, VariableType.JWT⟩]⟩
        [⟨"K".toList, "y".toList⟩, ⟨"L".toList, "z".toList⟩]).«variables» =
      [⟨"a".toList, "K".toList, "y".toList, true, VariableType.JWT⟩,
       ⟨"n".toList, "L".toList, "z".toList, false, VariableType.TEXT⟩] := by
  have h := merge_update_append (fun _ => "n".toList) 0
    ⟨"p".toList, "dev".toList,
      [⟨"a".toList, "K".toList, "x".toList, true, VariableType.JWT⟩]⟩
    [⟨"K".toList, "y".toList⟩, ⟨"L".toList, "z".toList⟩] (by decide)
  rw [h]
  decide

/-- C3 counterexample: two pairs with the same fresh key merged into an
empty profile yield one appended variable (the later pair overwrites the
earlier), not one per pair: no variable carries the first pair's
value. -/
theorem merge_duplicate_pairs_counterexample :
    (mergeVars (fun _ => "n".toList) 0 []
        [⟨"K".toList, "v1".toList⟩, ⟨"K".toList, "v2".toList⟩]).length = 1 ∧
    ¬ ∃ v ∈ mergeVars (fun _ => "n".toList) 0 []
        [⟨"K".toList, "v1".toList⟩, ⟨"K".toList, "v2".toList⟩], v.value = "v1".toList := by
  refine ⟨by decide, ?_⟩
  decide

/-- C8 (amended): on a profile whose variable keys are pairwise
distinct, Merge never removes a variable: every variable whose key is
matched by no pair is present unchanged in the result, and the variable
count never decreases. -/
theorem merge_frame (gen : Nat → Str) (c : Nat) (prof : Profile) (pairs : List EnvPair)
    (h : (prof.«variables».map (fun v => v.key)).Nodup) :
    (∀ v ∈ prof.«variables», (∀ p ∈ pairs, p.key ≠ v.key) →
        v ∈ (mergeProfile gen c prof pairs).«variables») ∧
    prof.«variables».length ≤ (mergeProfile gen c prof pairs).«variables».length := by
  have hs := mergeVars_nodup_spec gen c prof.«variables» pairs h
  show (∀ v ∈ prof.«variables», _ → v ∈ mergeVars gen c prof.«variables» pairs) ∧
    prof.«variables».length ≤ (mergeVars gen c prof.«variables» pairs).length
  rw [hs]
  refine ⟨?_, ?_⟩
  · intro v hv hnone
    apply List.mem_append_left
    refine List.mem_map.2 ⟨v, hv, ?_⟩
    have : lastVal? pairs v.key = none := (lastVal?_eq_none pairs v.key).2 hnone
    rw [this]
  · rw [List.length_append, List.length_map]
    omega

/-- C8 witness. -/
theorem merge_frame_witness :
    ⟨"a".toList, "K".toList, "x".toList, false, VariableType.TEXT⟩ ∈
      (mergeProfile (fun _ => "n".toList) 0
        ⟨"p".toList, "dev".toList,
          [⟨"a".toList, "K".toList, "x".toList, false, VariableType.TEXT⟩]⟩
        [⟨"L".toList, "z".toList⟩]).«variables» := by
  refine (merge_frame (fun _ => "n".toList) 0
    ⟨"p".toList, "dev".toList,
      [⟨"a".toList, "K".toList, "x".toList, false, VariableType.TEXT⟩]⟩
    [⟨"L".toList, "z".toList⟩] (by decide)).1
    ⟨"a".toList, "K".toList, "x".toList, false, VariableType.TEXT⟩ (by decide) (by decide)

/-- C8 counterexample: a profile with two variables sharing a key loses
one of them in the merge even with an empty pair list — the merge
deduplicates by key, so the count decreases. -/
theorem merge_drops_variable_counterexample :
    (mergeVars (fun _ => "n".toList) 0
        [⟨"a".toList, "K".toList, "x".toList, false, VariableType.TEXT⟩,
         ⟨"b".toList, "K".toList, "y".toList, false, VariableType.TEXT⟩] []).length = 1 ∧
    ⟨"a".toList, "K".toList, "x".toList, false, VariableType.TEXT⟩ ∉
      mergeVars (fun _ => "n".toList) 0
        [⟨"a".toList, "K".toList, "x".toList, false, VariableType.TEXT⟩,
         ⟨"b".toList, "K".toList, "y".toList, false, VariableType.TEXT⟩] [] := by
  refine ⟨by decide, ?_⟩
  decide

theorem keysOf_append (l₁ l₂ : VarMap) : keysOf (l₁ ++ l₂) = keysOf l₁ ++ keysOf l₂ := by
  unfold keysOf
  rw [List.map_append]

theorem patch_preserves_inv {pairs : List EnvPair} {m : VarMap}
    (hinv : ∀ e ∈ m, e.1 = e.2.key) :
    ∀ e ∈ m.map (patchEntry pairs), e.1 = e.2.key := by
  intro e he
  obtain ⟨e₀, he₀, heq⟩ := List.mem_map.1 he
  subst heq
  unfold patchEntry
  cases lastVal? pairs e₀.1 with
  | some val => exact hinv e₀ he₀
  | none => exact hinv e₀ he₀

theorem keysOf_map_patch (pairs : List EnvPair) (m : VarMap) :
    keysOf (m.map (patchEntry pairs)) = keysOf m := by
  unfold keysOf
  rw [List.map_map]
  apply List.map_congr_left
  intro e _
  exact patchEntry_fst pairs e

theorem buildVarMap_of_entries {m : VarMap}
    (hinv : ∀ e ∈ m, e.1 = e.2.key) (hnd : (keysOf m).Nodup) :
    buildVarMap (m.map (fun e => e.2)) = m := by
  have hkeys : (m.map (fun e => e.2)).map (fun v => v.key) = keysOf m := by
    rw [List.map_map]
    unfold keysOf
    apply List.map_congr_left
    intro e he
    exact (hinv e he).symm
  rw [buildVarMap_of_nodup _ (by rw [hkeys]; exact hnd), List.map_map]
  apply list_map_eq_self
  intro e he
  have hke := hinv e he
  cases e with
  | mk k v =>
    show (v.key, v) = (k, v)
    simp only [Prod.mk.injEq]
    exact ⟨hke.symm, trivial⟩

theorem mergeVars_absorb (gen gen' : Nat → Str) (c c' : Nat)
    (vars : List EnvironmentVariable) (ps : List EnvPair) :
    mergeVars gen' c' (mergeVars gen c vars ps) ps = mergeVars gen c vars ps := by
  obtain ⟨hinv0, hnd0⟩ := buildVarMap_inv vars
  have hM1 : mergeVars gen c vars ps =
      ((buildVarMap vars).map (patchEntry ps) ++
        newEntries gen (keysOf (buildVarMap vars)) c ps).map (fun e => e.2) :=
    mergeVars_eq gen c vars ps
  set m := buildVarMap vars with hm
  set M := m.map (patchEntry ps) ++ newEntries gen (keysOf m) c ps with hM
  have hinv1 : ∀ e ∈ M, e.1 = e.2.key := by
    intro e he
    rcases List.mem_append.1 he with he | he
    · exact patch_preserves_inv hinv0 e he
    · exact newEntries_inv gen ps (keysOf m) c e he
  obtain ⟨hndN, hfrN⟩ := newEntries_fresh gen ps (keysOf m) c
  have hnd1 : (keysOf M).Nodup := by
    rw [hM, keysOf_append, List.nodup_append, keysOf_map_patch]
    refine ⟨hnd0, hndN, ?_⟩
    intro k hk1 hk2
    exact hfrN k hk2 hk1
  have hmem : ∀ p ∈ ps, p.key ∈ keysOf M := by
    intro p hp
    rw [hM, keysOf_append, keysOf_map_patch]
    by_cases hk : p.key ∈ keysOf m
    · exact List.mem_append_left _ hk
    · exact List.mem_append_right _ (newEntries_contains gen ps (keysOf m) c p.key
        (List.mem_map.2 ⟨p, hp, rfl⟩) hk)
  have hfix : M.map (patchEntry ps) = M := by
    apply list_map_eq_self
    intro e he
    rcases List.mem_append.1 (hM ▸ he) with he' | he'
    · obtain ⟨e₀, he₀, heq⟩ := List.mem_map.1 he'
      rw [← heq, patchEntry_idem]
    · have hv := newEntries_lastVal gen ps (keysOf m) c e he'
      unfold patchEntry
      rw [hv]
      cases e with
      | mk k v =>
        show (k, setValue v v.value) = (k, v)
        rw [setValue_self]
  rw [hM1, mergeVars_eq, buildVarMap_of_entries hinv1 hnd1,
    newEntries_empty gen' ps (keysOf M) c' hmem, hfix, List.append_nil]

/-- C10: committing an import plan — the pairs produced by diffing a
profile against an imported sequence, new list before updated list —
through the merge twice in succession yields the same profile as
committing it once, for every profile and imported sequence. -/
theorem import_merge_idempotent (gen gen' : Nat → Str) (c c' : Nat) (prof : Profile)
    (I : List EnvPair) :
    mergeProfile gen' c'
        (mergeProfile gen c prof (importPlanPairs prof.«variables» I))
        (importPlanPairs prof.«variables» I) =
      mergeProfile gen c prof (importPlanPairs prof.«variables» I) := by
  unfold mergeProfile
  simp only [mergeVars_absorb]

theorem find?_congr_mem {α : Type} {p q : α → Bool} :
    ∀ {l : List α}, (∀ a ∈ l, p a = q a) → l.find? p = l.find? q
  | [], _ => rfl
  | a :: as, h => by
    have ha := h a (by simp)
    cases hp : p a with
    | true =>
      rw [List.find?_cons_of_pos as hp, List.find?_cons_of_pos as (ha ▸ hp)]
    | false =>
      rw [List.find?_cons_of_neg as (by simp [hp]), List.find?_cons_of_neg as (by
        rw [← ha]; simp [hp])]
      exact find?_congr_mem (fun x hx => h x (by simp [hx]))

theorem firstVal_mergeVars (gen : Nat → Str) (c : Nat) (vars : List EnvironmentVariable)
    (ps : List EnvPair) (k : Str) (hk : k ∈ ps.map (fun p => p.key)) :
    firstVal? (mergeVars gen c vars ps) k = lastVal? ps k := by
  obtain ⟨hinv0, hnd0⟩ := buildVarMap_inv vars
  rw [mergeVars_eq]
  set m := buildVarMap vars with hm
  set M := m.map (patchEntry ps) ++ newEntries gen (keysOf m) c ps with hM
  have hinv1 : ∀ e ∈ M, e.1 = e.2.key := by
    intro e he
    rcases List.mem_append.1 he with he | he
    · exact patch_preserves_inv hinv0 e he
    · exact newEntries_inv gen ps (keysOf m) c e he
  have hkeysM : k ∈ keysOf M := by
    rw [hM, keysOf_append, keysOf_map_patch]
    by_cases hkm : k ∈ keysOf m
    · exact List.mem_append_left _ hkm
    · exact List.mem_append_right _ (newEntries_contains gen ps (keysOf m) c k hk hkm)
  unfold firstVal?
  rw [List.find?_map]
  have hpred : M.find? ((fun v => decide (v.key = k)) ∘ (fun e => e.2)) =
      M.find? (fun e => decide (e.1 = k)) := by
    apply find?_congr_mem
    intro e he
    show decide (e.2.key = k) = decide (e.1 = k)
    rw [hinv1 e he]
  rw [hpred]
  cases hf : M.find? (fun e => decide (e.1 = k)) with
  | none =>
    exfalso
    obtain ⟨e, he, hke⟩ := mem_keysOf.1 hkeysM
    have := List.find?_eq_none.1 hf e he
    simp [hke] at this
  | some e =>
    have hpe : e.1 = k := by
      have := List.find?_some hf
      simpa using this
    have hmem := List.mem_of_find?_eq_some hf
    have hval : lastVal? ps e.1 = some e.2.value := by
      rcases List.mem_append.1 (hM ▸ hmem) with he' | he'
      · obtain ⟨e₀, he₀, heq⟩ := List.mem_map.1 he'
        have hsome : (lastVal? ps e₀.1).isSome := by
          rw [lastVal?_isSome]
          rw [← heq] at hpe
          rw [patchEntry_fst] at hpe
          rw [hpe]
          exact hk
        obtain ⟨v, hv⟩ := Option.isSome_iff_exists.1 hsome
        have : patchEntry ps e₀ = (e₀.1, setValue e₀.2 v) := by
          unfold patchEntry
          rw [hv]
        rw [← heq, this]
        show lastVal? ps e₀.1 = some (setValue e₀.2 v).value
        rw [hv]
        rfl
      · exact newEntries_lastVal gen ps (keysOf m) c e he'
    rw [hpe] at hval
    rw [hval]
    rfl

/-- C4 (amended): within the merge step later pairs do overwrite earlier
ones — the value a key resolves to in the merged result is the value of
its last pair — but the diff step classifies each parsed occurrence
independently against the existing value, not against the final resolved
value per key; an occurrence equal to the existing value is excluded
even when an earlier occurrence differs, and the earlier occurrence then
wins downstream. -/
theorem import_duplicate_key_resolution :
    (∀ (gen : Nat → Str) (c : Nat) (vars : List EnvironmentVariable) (ps : List EnvPair)
        (k : Str), k ∈ ps.map (fun p => p.key) →
        firstVal? (mergeVars gen c vars ps) k = lastVal? ps k) ∧
    (∀ (vars : List EnvironmentVariable) (I : List EnvPair),
        (diffVars vars I).updatedVars = I.filterMap (fun p =>
          match envLookup vars p.key with
          | none => none
          | some old => if old = p.value then none else some ⟨p.key, p.value, old⟩)) := by
  refine ⟨firstVal_mergeVars, ?_⟩
  intro vars I
  unfold diffVars
  rw [diff_foldl]
  simp

/-- C4 witness. -/
theorem import_duplicate_key_resolution_witness :
    firstVal? (mergeVars (fun _ => "n".toList) 0 [] [⟨"K".toList, "x".toList⟩]) "K".toList =
      some "x".toList := by
  have h := import_duplicate_key_resolution.1 (fun _ => "n".toList) 0 []
    [⟨"K".toList, "x".toList⟩] "K".toList (by decide)
  rw [h]
  decide

/-- C4 counterexample: existing `K=b`, import text `K=a` then `K=b`.
The last line's value is `b`, yet the committed result maps `K` to `a`:
the diff drops the second occurrence (equal to the existing value) and
keeps the first, so the downstream mapping does not keep the last
line's value. -/
theorem import_last_wins_counterexample :
    (importFileToProfile (fun _ => "n".toList) 0
        ⟨"p".toList, "dev".toList,
          [⟨"v1".toList, "K".toList, "b".toList, false, VariableType.TEXT⟩]⟩
        "K=a\nK=b".toList).«variables».map (fun v => (v.key, v.value)) =
      [("K".toList, "a".toList)] ∧
    lastVal? (parseEnv "K=a\nK=b".toList) "K".toList = some "b".toList ∧
    ("a".toList : Str) ≠ "b".toList := by
  refine ⟨by decide, by decide, by decide⟩

theorem filter_ne_nonempty (profs : List Profile) (profId : Str)
    (hlen : 2 ≤ profs.length) (hnd : (profs.map (fun prof => prof.id)).Nodup) :
    profs.filter (fun prof => decide (prof.id ≠ profId)) ≠ [] := by
  intro hnil
  have hall := List.filter_eq_nil_iff.1 hnil
  cases profs with
  | nil => simp at hlen
  | cons q1 rest =>
    cases rest with
    | nil => simp at hlen
    | cons q2 rest2 =>
      have h1 : q1.id = profId := by
        have := hall q1 (by simp)
        simpa using this
      have h2 : q2.id = profId := by
        have := hall q2 (by simp)
        simpa using this
      rw [List.map_cons, List.map_cons] at hnd
      have := (List.nodup_cons.1 hnd).1
      simp [h1, h2] at this

theorem deleteProfileInProject_wf {p : Project} (profId : Str)
    (hne : p.profiles ≠ []) (hnd : (p.profiles.map (fun prof => prof.id)).Nodup) :
    (deleteProfileInProject profId p).profiles ≠ [] ∧
      ((deleteProfileInProject profId p).profiles.map (fun prof => prof.id)).Nodup := by
  simp only [deleteProfileInProject]
  by_cases hlen : p.profiles.length ≤ 1
  · rw [if_pos hlen]
    exact ⟨hne, hnd⟩
  · rw [if_neg hlen]
    have hlen2 : 2 ≤ p.profiles.length := by omega
    have hfil := filter_ne_nonempty p.profiles profId hlen2 hnd
    have hnd' : ((p.profiles.filter (fun prof => decide (prof.id ≠ profId))).map
        (fun prof => prof.id)).Nodup :=
      hnd.sublist (List.Sublist.map _ (List.filter_sublist _))
    by_cases ha : p.activeProfileId = profId
    · rw [if_pos ha]
      cases hnp : p.profiles.filter (fun prof => decide (prof.id ≠ profId)) with
      | nil => exact ⟨hne, hnd⟩
      | cons first rest =>
        rw [hnp] at hnd'
        exact ⟨by simp, hnd'⟩
    · rw [if_neg ha]
      exact ⟨hfil, hnd'⟩

theorem deleteProfileInProject_active {p : Project} (profId : Str)
    (h : ∃ prof ∈ p.profiles, prof.id = p.activeProfileId) :
    ∃ prof ∈ (deleteProfileInProject profId p).profiles,
      prof.id = (deleteProfileInProject profId p).activeProfileId := by
  simp only [deleteProfileInProject]
  by_cases hlen : p.profiles.length ≤ 1
  · rw [if_pos hlen]
    exact h
  · rw [if_neg hlen]
    by_cases ha : p.activeProfileId = profId
    · rw [if_pos ha]
      cases hnp : p.profiles.filter (fun prof => decide (prof.id ≠ profId)) with
      | nil => exact h
      | cons first rest => exact ⟨first, by simp, rfl⟩
    · rw [if_neg ha]
      obtain ⟨prof, hm, hid⟩ := h
      refine ⟨prof, List.mem_filter.2 ⟨hm, ?_⟩, hid⟩
      simp only [decide_eq_true_eq]
      rw [hid]
      exact ha

theorem active_proj_profilesMap {p : Project} {g : Profile → Profile}
    (hg : ∀ prof, (g prof).id = prof.id)
    (h : ∃ prof ∈ p.profiles, prof.id = p.activeProfileId) :
    ∃ prof ∈ p.profiles.map g, prof.id = p.activeProfileId := by
  obtain ⟨prof, hm, hi⟩ := h
  exact ⟨g prof, List.mem_map.2 ⟨prof, hm, rfl⟩, (hg prof).trans hi⟩

theorem addProfileInProject_active {p : Project} (name newProfileId : Str) (gen : Nat → Str)
    (h : ∃ prof ∈ p.profiles, prof.id = p.activeProfileId) :
    ∃ prof ∈ (addProfileInProject name newProfileId gen p).profiles,
      prof.id = (addProfileInProject name newProfileId gen p).activeProfileId := by
  unfold addProfileInProject
  cases hf : p.profiles.find? (fun prof => decide (prof.id = p.activeProfileId)) with
  | none => exact h
  | some activeProf =>
    exact ⟨⟨newProfileId, name, cloneVars gen 0 activeProf.«variables»⟩, by simp, rfl⟩

theorem storeStep_preserves_active (s : StoreState) (op : StoreOp)
    (h : ActiveOK s) (hsafe : SafeProfileRefs s op) : ActiveOK (storeStep s op) := by
  unfold ActiveOK at h ⊢
  cases op with
  | profileChange projectId profileId =>
    have hsafe' : ∀ p ∈ s.projects, p.id = projectId →
        ∃ prof ∈ p.profiles, prof.id = profileId := hsafe
    intro p hp
    obtain ⟨p₀, hp₀, hFp⟩ := List.mem_map.1 hp
    by_cases hid : p₀.id = projectId
    · rw [if_pos hid] at hFp
      subst hFp
      exact hsafe' p₀ hp₀ hid
    · rw [if_neg hid] at hFp
      subst hFp
      exact h p₀ hp₀
  | variableChange profileId varId upd =>
    intro p hp
    obtain ⟨p₀, hp₀, hFp⟩ := List.mem_map.1 hp
    by_cases hid : some p₀.id = s.selectedProjectId
    · rw [if_pos hid] at hFp
      subst hFp
      exact active_proj_profilesMap (fun prof => by
        by_cases hq : prof.id = profileId <;> simp [hq, updateVariableInProfile]) (h p₀ hp₀)
    · rw [if_neg hid] at hFp
      subst hFp
      exact h p₀ hp₀
  | addVariable profileId newVarId =>
    intro p hp
    obtain ⟨p₀, hp₀, hFp⟩ := List.mem_map.1 hp
    by_cases hid : some p₀.id = s.selectedProjectId
    · rw [if_pos hid] at hFp
      subst hFp
      exact active_proj_profilesMap (fun prof => by
        by_cases hq : prof.id = profileId <;> simp [hq]) (h p₀ hp₀)
    · rw [if_neg hid] at hFp
      subst hFp
      exact h p₀ hp₀
  | deleteVariable profileId varId =>
    intro p hp
    obtain ⟨p₀, hp₀, hFp⟩ := List.mem_map.1 hp
    by_cases hid : some p₀.id = s.selectedProjectId
    · rw [if_pos hid] at hFp
      subst hFp
      exact active_proj_profilesMap (fun prof => by
        by_cases hq : prof.id = profileId <;> simp [hq]) (h p₀ hp₀)
    · rw [if_neg hid] at hFp
      subst hFp
      exact h p₀ hp₀
  | addProject name newProjectId newProfileId =>
    intro p hp
    rcases List.mem_append.1 hp with hp | hp
    · exact h p hp
    · rcases List.mem_cons.1 hp with hp | hp
      · subst hp
        exact ⟨⟨newProfileId, "development".toList, []⟩, by simp, rfl⟩
      · simp at hp
  | renameProject projectId name =>
    intro p hp
    obtain ⟨p₀, hp₀, hFp⟩ := List.mem_map.1 hp
    by_cases hid : p₀.id = projectId
    · rw [if_pos hid] at hFp
      subst hFp
      exact h p₀ hp₀
    · rw [if_neg hid] at hFp
      subst hFp
      exact h p₀ hp₀
  | deleteProject projectId =>
    intro p hp
    exact h p (List.mem_of_mem_filter hp)
  | addProfile projectId name newProfileId gen =>
    intro p hp
    obtain ⟨p₀, hp₀, hFp⟩ := List.mem_map.1 hp
    by_cases hid : p₀.id = projectId
    · rw [if_pos hid] at hFp
      subst hFp
      exact addProfileInProject_active name newProfileId gen (h p₀ hp₀)
    · rw [if_neg hid] at hFp
      subst hFp
      exact h p₀ hp₀
  | renameProfile projectId profileId name =>
    intro p hp
    obtain ⟨p₀, hp₀, hFp⟩ := List.mem_map.1 hp
    by_cases hid : p₀.id = projectId
    · rw [if_pos hid] at hFp
      subst hFp
      exact active_proj_profilesMap (fun prof => by
        by_cases hq : prof.id = profileId <;> simp [hq]) (h p₀ hp₀)
    · rw [if_neg hid] at hFp
      subst hFp
      exact h p₀ hp₀
  | deleteProfile projectId profileId =>
    intro p hp
    obtain ⟨p₀, hp₀, hFp⟩ := List.mem_map.1 hp
    by_cases hid : p₀.id = projectId
    · rw [if_pos hid] at hFp
      subst hFp
      exact deleteProfileInProject_active profileId (h p₀ hp₀)
    · rw [if_neg hid] at hFp
      subst hFp
      exact h p₀ hp₀
  | importVariables profileId pairs gen c =>
    intro p hp
    obtain ⟨p₀, hp₀, hFp⟩ := List.mem_map.1 hp
    by_cases hid : some p₀.id = s.selectedProjectId
    · rw [if_pos hid] at hFp
      subst hFp
      exact active_proj_profilesMap (fun prof => by
        by_cases hq : prof.id = profileId <;> simp [hq, mergeProfile]) (h p₀ hp₀)
    · rw [if_neg hid] at hFp
      subst hFp
      exact h p₀ hp₀

theorem wf_proj_profilesMap {profs : List Profile} {g : Profile → Profile}
    (hg : ∀ prof, (g prof).id = prof.id) (hne : profs ≠ [])
    (hnd : (profs.map (fun prof => prof.id)).Nodup) :
    profs.map g ≠ [] ∧ ((profs.map g).map (fun prof => prof.id)).Nodup := by
  constructor
  · intro hx
    exact hne (List.map_eq_nil_iff.1 hx)
  · rw [List.map_map]
    have hcomp : ((fun prof => prof.id) ∘ g) = fun prof => prof.id := funext hg
    rw [hcomp]
    exact hnd

theorem addProfileInProject_wf {p : Project} (name newProfileId : Str) (gen : Nat → Str)
    (hne : p.profiles ≠ []) (hnd : (p.profiles.map (fun prof => prof.id)).Nodup)
    (hfresh : newProfileId ∉ p.profiles.map (fun prof => prof.id)) :
    (addProfileInProject name newProfileId gen p).profiles ≠ [] ∧
      ((addProfileInProject name newProfileId gen p).profiles.map
        (fun prof => prof.id)).Nodup := by
  unfold addProfileInProject
  cases hf : p.profiles.find? (fun prof => decide (prof.id = p.activeProfileId)) with
  | none => exact ⟨hne, hnd⟩
  | some activeProf =>
    constructor
    · simp
    · rw [List.map_append, List.nodup_append]
      refine ⟨hnd, by simp, ?_⟩
      intro k hk1 hk2
      simp at hk2
      subst hk2
      exact hfresh hk1

theorem storeStep_preserves_wf (s : StoreState) (op : StoreOp)
    (h : StoreWF s) (hfresh : FreshOk s op) : StoreWF (storeStep s op) := by
  obtain ⟨hne, hnd⟩ := h
  unfold ProfilesNonempty at hne
  unfold ProfileIdsNodup at hnd
  have main : ∀ p ∈ (storeStep s op).projects,
      p.profiles ≠ [] ∧ (p.profiles.map (fun prof => prof.id)).Nodup := by
    cases op with
    | profileChange projectId profileId =>
      intro p hp
      obtain ⟨p₀, hp₀, hFp⟩ := List.mem_map.1 hp
      by_cases hid : p₀.id = projectId
      · rw [if_pos hid] at hFp
        subst hFp
        exact ⟨hne p₀ hp₀, hnd p₀ hp₀⟩
      · rw [if_neg hid] at hFp
        subst hFp
        exact ⟨hne p₀ hp₀, hnd p₀ hp₀⟩
    | variableChange profileId varId upd =>
      intro p hp
      obtain ⟨p₀, hp₀, hFp⟩ := List.mem_map.1 hp
      by_cases hid : some p₀.id = s.selectedProjectId
      · rw [if_pos hid] at hFp
        subst hFp
        exact wf_proj_profilesMap (fun prof => by
          by_cases hq : prof.id = profileId <;> simp [hq, updateVariableInProfile])
          (hne p₀ hp₀) (hnd p₀ hp₀)
      · rw [if_neg hid] at hFp
        subst hFp
        exact ⟨hne p₀ hp₀, hnd p₀ hp₀⟩
    | addVariable profileId newVarId =>
      intro p hp
      obtain ⟨p₀, hp₀, hFp⟩ := List.mem_map.1 hp
      by_cases hid : some p₀.id = s.selectedProjectId
      · rw [if_pos hid] at hFp
        subst hFp
        exact wf_proj_profilesMap (fun prof => by
          by_cases hq : prof.id = profileId <;> simp [hq]) (hne p₀ hp₀) (hnd p₀ hp₀)
      · rw [if_neg hid] at hFp
        subst hFp
        exact ⟨hne p₀ hp₀, hnd p₀ hp₀⟩
    | deleteVariable profileId varId =>
      intro p hp
      obtain ⟨p₀, hp₀, hFp⟩ := List.mem_map.1 hp
      by_cases hid : some p₀.id = s.selectedProjectId
      · rw [if_pos hid] at hFp
        subst hFp
        exact wf_proj_profilesMap (fun prof => by
          by_cases hq : prof.id = profileId <;> simp [hq]) (hne p₀ hp₀) (hnd p₀ hp₀)
      · rw [if_neg hid] at hFp
        subst hFp
        exact ⟨hne p₀ hp₀, hnd p₀ hp₀⟩
    | addProject name newProjectId newProfileId =>
      intro p hp
      rcases List.mem_append.1 hp with hp | hp
      · exact ⟨hne p hp, hnd p hp⟩
      · rcases List.mem_cons.1 hp with hp | hp
        · subst hp
          exact ⟨by simp, by simp⟩
        · simp at hp
    | renameProject projectId name =>
      intro p hp
      obtain ⟨p₀, hp₀, hFp⟩ := List.mem_map.1 hp
      by_cases hid : p₀.id = projectId
      · rw [if_pos hid] at hFp
        subst hFp
        exact ⟨hne p₀ hp₀, hnd p₀ hp₀⟩
      · rw [if_neg hid] at hFp
        subst hFp
        exact ⟨hne p₀ hp₀, hnd p₀ hp₀⟩
    | deleteProject projectId =>
      intro p hp
      have hp₀ := List.mem_of_mem_filter hp
      exact ⟨hne p hp₀, hnd p hp₀⟩
    | addProfile projectId name newProfileId gen =>
      have hfresh' : ∀ p ∈ s.projects, p.id = projectId →
          newProfileId ∉ p.profiles.map (fun prof => prof.id) := hfresh
      intro p hp
      obtain ⟨p₀, hp₀, hFp⟩ := List.mem_map.1 hp
      by_cases hid : p₀.id = projectId
      · rw [if_pos hid] at hFp
        subst hFp
        exact addProfileInProject_wf name newProfileId gen (hne p₀ hp₀) (hnd p₀ hp₀)
          (hfresh' p₀ hp₀ hid)
      · rw [if_neg hid] at hFp
        subst hFp
        exact ⟨hne p₀ hp₀, hnd p₀ hp₀⟩
    | renameProfile projectId profileId name =>
      intro p hp
      obtain ⟨p₀, hp₀, hFp⟩ := List.mem_map.1 hp
      by_cases hid : p₀.id = projectId
      · rw [if_pos hid] at hFp
        subst hFp
        exact wf_proj_profilesMap (fun prof => by
          by_cases hq : prof.id = profileId <;> simp [hq]) (hne p₀ hp₀) (hnd p₀ hp₀)
      · rw [if_neg hid] at hFp
        subst hFp
        exact ⟨hne p₀ hp₀, hnd p₀ hp₀⟩
    | deleteProfile projectId profileId =>
      intro p hp
      obtain ⟨p₀, hp₀, hFp⟩ := List.mem_map.1 hp
      by_cases hid : p₀.id = projectId
      · rw [if_pos hid] at hFp
        subst hFp
        exact deleteProfileInProject_wf profileId (hne p₀ hp₀) (hnd p₀ hp₀)
      · rw [if_neg hid] at hFp
        subst hFp
        exact ⟨hne p₀ hp₀, hnd p₀ hp₀⟩
    | importVariables profileId pairs gen c =>
      intro p hp
      obtain ⟨p₀, hp₀, hFp⟩ := List.mem_map.1 hp
      by_cases hid : some p₀.id = s.selectedProjectId
      · rw [if_pos hid] at hFp
        subst hFp
        exact wf_proj_profilesMap (fun prof => by
          by_cases hq : prof.id = profileId <;> simp [hq, mergeProfile])
          (hne p₀ hp₀) (hnd p₀ hp₀)
      · rw [if_neg hid] at hFp
        subst hFp
        exact ⟨hne p₀ hp₀, hnd p₀ hp₀⟩
  exact ⟨fun p hp => (main p hp).1, fun p hp => (main p hp).2⟩

theorem storeSteps_preserves_wf :
    ∀ (ops : List StoreOp) (s : StoreState), StoreWF s → FreshAlong s ops →
      StoreWF (storeSteps s ops)
  | [], _, h, _ => h
  | op :: ops, s, h, hf =>
    storeSteps_preserves_wf ops (storeStep s op)
      (storeStep_preserves_wf s op h hf.1) hf.2

/-- C7 (amended): in a state satisfying the active-profile membership
invariant, every store-controller operation addressed to a non-existent
project, profile, or variable id returns the state unchanged and raises
no error — with the one exception of `setActiveProfile`, which checks
only the project id: addressed to an existing project it assigns the
given profile id without checking membership. -/
theorem referential_noop (s : StoreState) (op : StoreOp)
    (hA : ActiveOK s) (hmiss : RefsMissing s op) : storeStep s op = s := by
  cases op with
  | profileChange projectId profileId =>
    have hm : ∀ p ∈ s.projects, p.id ≠ projectId := hmiss
    show ({ s with projects := s.projects.map (fun p =>
      if p.id = projectId then { p with activeProfileId := profileId } else p) } : StoreState) = s
    rw [list_map_eq_self (fun p hp => if_neg (hm p hp))]
  | variableChange profileId varId upd =>
    have hm : ∀ p ∈ s.projects, some p.id = s.selectedProjectId →
        ∀ prof ∈ p.profiles, prof.id = profileId →
        ∀ v ∈ prof.«variables», v.id ≠ varId := by
      intro p hp hsel prof hprof hid v hv
      intro hvid
      exact hmiss ⟨p, hp, hsel, prof, hprof, hid, v, hv, hvid⟩
    show ({ s with projects := s.projects.map _ } : StoreState) = s
    rw [list_map_eq_self ?_]
    intro p hp
    by_cases hsel : some p.id = s.selectedProjectId
    · rw [if_pos hsel]
      have hprofiles : p.profiles.map (fun prof =>
          if prof.id = profileId then updateVariableInProfile varId upd prof else prof) =
          p.profiles := by
        apply list_map_eq_self
        intro prof hprof
        by_cases hid : prof.id = profileId
        · rw [if_pos hid]
          unfold updateVariableInProfile
          rw [list_map_eq_self (fun v hv => if_neg (hm p hp hsel prof hprof hid v hv))]
        · rw [if_neg hid]
      rw [hprofiles]
    · rw [if_neg hsel]
  | addVariable profileId newVarId =>
    have hm : ∀ p ∈ s.projects, some p.id = s.selectedProjectId →
        ∀ prof ∈ p.profiles, prof.id ≠ profileId := by
      intro p hp hsel prof hprof hid
      exact hmiss ⟨p, hp, hsel, prof, hprof, hid⟩
    show ({ s with projects := s.projects.map _ } : StoreState) = s
    rw [list_map_eq_self ?_]
    intro p hp
    by_cases hsel : some p.id = s.selectedProjectId
    · rw [if_pos hsel]
      rw [list_map_eq_self (fun prof hprof => if_neg (hm p hp hsel prof hprof))]
    · rw [if_neg hsel]
  | deleteVariable profileId varId =>
    have hm : ∀ p ∈ s.projects, some p.id = s.selectedProjectId →
        ∀ prof ∈ p.profiles, prof.id = profileId →
        ∀ v ∈ prof.«variables», v.id ≠ varId := by
      intro p hp hsel prof hprof hid v hv
      intro hvid
      exact hmiss ⟨p, hp, hsel, prof, hprof, hid, v, hv, hvid⟩
    show ({ s with projects := s.projects.map _ } : StoreState) = s
    rw [list_map_eq_self ?_]
    intro p hp
    by_cases hsel : some p.id = s.selectedProjectId
    · rw [if_pos hsel]
      have hprofiles : p.profiles.map (fun prof =>
          if prof.id = profileId then
            { prof with «variables» :=
                prof.«variables».filter (fun v => decide (v.id ≠ varId)) }
          else prof) = p.profiles := by
        apply list_map_eq_self
        intro prof hprof
        by_cases hid : prof.id = profileId
        · rw [if_pos hid]
          have : prof.«variables».filter (fun v => decide (v.id ≠ varId)) =
              prof.«variables» :=
            List.filter_eq_self.2 (fun v hv => by
              simp only [decide_eq_true_eq]
              exact hm p hp hsel prof hprof hid v hv)
          rw [this]
        · rw [if_neg hid]
      rw [hprofiles]
    · rw [if_neg hsel]
  | addProject name newProjectId newProfileId =>
    exact hmiss.elim
  | renameProject projectId name =>
    have hm : ∀ p ∈ s.projects, p.id ≠ projectId := hmiss
    show ({ s with projects := s.projects.map _ } : StoreState) = s
    rw [list_map_eq_self (fun p hp => if_neg (hm p hp))]
  | deleteProject projectId =>
    have hm : ∀ p ∈ s.projects, p.id ≠ projectId := hmiss
    show ({ s with projects := s.projects.filter (fun p => decide (p.id ≠ projectId)) } :
      StoreState) = s
    rw [List.filter_eq_self.2 (fun p hp => by
      simp only [decide_eq_true_eq]
      exact hm p hp)]
  | addProfile projectId name newProfileId gen =>
    have hm : ∀ p ∈ s.projects, p.id ≠ projectId := hmiss
    show ({ s with projects := s.projects.map _ } : StoreState) = s
    rw [list_map_eq_self (fun p hp => if_neg (hm p hp))]
  | renameProfile projectId profileId name =>
    have hm : ∀ p ∈ s.projects, p.id = projectId →
        ∀ prof ∈ p.profiles, prof.id ≠ profileId := by
      intro p hp hid prof hprof hpid
      exact hmiss ⟨p, hp, hid, prof, hprof, hpid⟩
    show ({ s with projects := s.projects.map _ } : StoreState) = s
    rw [list_map_eq_self ?_]
    intro p hp
    by_cases hid : p.id = projectId
    · rw [if_pos hid]
      rw [list_map_eq_self (fun prof hprof => if_neg (hm p hp hid prof hprof))]
    · rw [if_neg hid]
  | deleteProfile projectId profileId =>
    have hm : ∀ p ∈ s.projects, p.id = projectId →
        ∀ prof ∈ p.profiles, prof.id ≠ profileId := by
      intro p hp hid prof hprof hpid
      exact hmiss ⟨p, hp, hid, prof, hprof, hpid⟩
    show ({ s with projects := s.projects.map _ } : StoreState) = s
    rw [list_map_eq_self ?_]
    intro p hp
    by_cases hid : p.id = projectId
    · rw [if_pos hid]
      have hdel : deleteProfileInProject profileId p = p := by
        simp only [deleteProfileInProject]
        by_cases hlen : p.profiles.length ≤ 1
        · rw [if_pos hlen]
        · rw [if_neg hlen]
          have hfil : p.profiles.filter (fun prof => decide (prof.id ≠ profileId)) =
              p.profiles :=
            List.filter_eq_self.2 (fun prof hprof => by
              simp only [decide_eq_true_eq]
              exact hm p hp hid prof hprof)
          have ha : ¬ p.activeProfileId = profileId := by
            intro hact
            obtain ⟨prof, hprof, hpid⟩ := hA p hp
            exact hm p hp hid prof hprof (hpid.trans hact)
          rw [hfil, if_neg ha]
      rw [hdel]
    · rw [if_neg hid]
  | importVariables profileId pairs gen c =>
    have hm : ∀ p ∈ s.projects, some p.id = s.selectedProjectId →
        ∀ prof ∈ p.profiles, prof.id ≠ profileId := by
      intro p hp hsel prof hprof hid
      exact hmiss ⟨p, hp, hsel, prof, hprof, hid⟩
    show ({ s with projects := s.projects.map _ } : StoreState) = s
    rw [list_map_eq_self ?_]
    intro p hp
    by_cases hsel : some p.id = s.selectedProjectId
    · rw [if_pos hsel]
      rw [list_map_eq_self (fun prof hprof => if_neg (hm p hp hsel prof hprof))]
    · rw [if_neg hsel]

/-- C5 (amended): every store-controller operation other than
`setActiveProfile` preserves the invariant that each project's
`activeProfileId` is a member of its profiles, and `setActiveProfile`
preserves it exactly when the given profile id is a member of the
addressed project's profiles (the handler assigns the id without a
membership check); moreover deleting the active profile reassigns
`activeProfileId` to the first remaining profile, and an added profile
(a clone of the active one) becomes the active profile in the same
step. -/
theorem active_profile_controller :
    (∀ (s : StoreState) (op : StoreOp), ActiveOK s → SafeProfileRefs s op →
        ActiveOK (storeStep s op)) ∧
    (∀ (profileId : Str) (p : Project) (first : Profile) (rest : List Profile),
        2 ≤ p.profiles.length → p.activeProfileId = profileId →
        p.profiles.filter (fun prof => decide (prof.id ≠ profileId)) = first :: rest →
        deleteProfileInProject profileId p =
          { p with profiles := first :: rest, activeProfileId := first.id }) ∧
    (∀ (name newProfileId : Str) (gen : Nat → Str) (p : Project) (activeProf : Profile),
        p.profiles.find? (fun prof => decide (prof.id = p.activeProfileId)) = some activeProf →
        addProfileInProject name newProfileId gen p =
          { p with
              profiles := p.profiles ++
                [⟨newProfileId, name, cloneVars gen 0 activeProf.«variables»⟩],
              activeProfileId := newProfileId }) := by
  refine ⟨storeStep_preserves_active, ?_, ?_⟩
  · intro profileId p first rest hlen hact hfil
    simp only [deleteProfileInProject]
    rw [if_neg (by omega), hfil, if_pos hact]
  · intro name newProfileId gen p activeProf hfind
    unfold addProfileInProject
    rw [hfind]

/-- C5 witness. -/
theorem active_profile_controller_witness :
    ActiveOK (storeStep
      ⟨[⟨"proj".toList, "P".toList,
          [⟨"prof1".toList, "dev".toList, []⟩, ⟨"prof2".toList, "prod".toList, []⟩],
          "prof1".toList⟩], some "proj".toList⟩
      (.deleteProfile "proj".toList "prof2".toList)) :=
  active_profile_controller.1
    ⟨[⟨"proj".toList, "P".toList,
        [⟨"prof1".toList, "dev".toList, []⟩, ⟨"prof2".toList, "prod".toList, []⟩],
        "prof1".toList⟩], some "proj".toList⟩
    (.deleteProfile "proj".toList "prof2".toList) (by decide) trivial

/-- C5 counterexample: `setActiveProfile` addressed to an existing
project but a profile id that is no member assigns it anyway, breaking
the invariant. -/
theorem active_profile_counterexample :
    ActiveOK ⟨[⟨"proj".toList, "P".toList, [⟨"prof1".toList, "dev".toList, []⟩],
        "prof1".toList⟩], some "proj".toList⟩ ∧
    ¬ ActiveOK (storeStep
      ⟨[⟨"proj".toList, "P".toList, [⟨"prof1".toList, "dev".toList, []⟩],
          "prof1".toList⟩], some "proj".toList⟩
      (.profileChange "proj".toList "ghost".toList)) := by
  constructor
  · decide
  · decide

/-- C6: deleting a project's only profile leaves the project unchanged,
and along every run of store operations from a well-formed state (each
project non-empty with duplicate-free profile ids, generated profile ids
fresh) every project keeps at least one profile. -/
theorem min_profile_invariant :
    (∀ (profileId : Str) (p : Project), p.profiles.length = 1 →
        deleteProfileInProject profileId p = p) ∧
    (∀ (ops : List StoreOp) (s : StoreState), StoreWF s → FreshAlong s ops →
        ProfilesNonempty (storeSteps s ops)) := by
  constructor
  · intro profileId p hlen
    unfold deleteProfileInProject
    rw [if_pos (by omega)]
  · intro ops s h hf
    exact (storeSteps_preserves_wf ops s h hf).1

/-- C6 witness. -/
theorem min_profile_invariant_witness :
    deleteProfileInProject "prof1".toList
      ⟨"proj".toList, "P".toList, [⟨"prof1".toList, "dev".toList, []⟩], "prof1".toList⟩ =
      ⟨"proj".toList, "P".toList, [⟨"prof1".toList, "dev".toList, []⟩], "prof1".toList⟩ ∧
    ProfilesNonempty (storeSteps
      ⟨[⟨"proj".toList, "P".toList, [⟨"prof1".toList, "dev".toList, []⟩], "prof1".toList⟩],
        some "proj".toList⟩
      [.deleteProfile "proj".toList "prof1".toList]) := by
  constructor
  · exact min_profile_invariant.1 "prof1".toList
      ⟨"proj".toList, "P".toList, [⟨"prof1".toList, "dev".toList, []⟩], "prof1".toList⟩
      (by decide)
  · exact min_profile_invariant.2 [.deleteProfile "proj".toList "prof1".toList]
      ⟨[⟨"proj".toList, "P".toList, [⟨"prof1".toList, "dev".toList, []⟩], "prof1".toList⟩],
        some "proj".toList⟩
      (by decide) ⟨trivial, trivial⟩

/-- C7 witness. -/
theorem referential_noop_witness :
    storeStep
      ⟨[⟨"proj".toList, "P".toList, [⟨"prof1".toList, "dev".toList, []⟩], "prof1".toList⟩],
        some "proj".toList⟩
      (.deleteProject "nope".toList) =
      ⟨[⟨"proj".toList, "P".toList, [⟨"prof1".toList, "dev".toList, []⟩], "prof1".toList⟩],
        some "proj".toList⟩ := by
  refine referential_noop _ _ (by decide) ?_
  intro p hp
  rcases List.mem_singleton.1 hp with rfl
  decide

/-- C7 counterexample: `setActiveProfile` addressed to an existing
project and a profile id that exists nowhere in the state changes the
state instead of being a no-op. -/
theorem referential_noop_counterexample :
    (∀ p ∈ ([⟨"proj".toList, "P".toList, [⟨"prof1".toList, "dev".toList, []⟩],
        "prof1".toList⟩] : List Project), ∀ prof ∈ p.profiles, prof.id ≠ "ghost".toList) ∧
    storeStep
      ⟨[⟨"proj".toList, "P".toList, [⟨"prof1".toList, "dev".toList, []⟩], "prof1".toList⟩],
        some "proj".toList⟩
      (.profileChange "proj".toList "ghost".toList) ≠
      ⟨[⟨"proj".toList, "P".toList, [⟨"prof1".toList, "dev".toList, []⟩], "prof1".toList⟩],
        some "proj".toList⟩ := by
  constructor
  · decide
  · decide
